import Mathlib

/-!
# kt::string_trie

A shallow embedding of `src/string_trie.hpp` and a verification of its specification.

## Embedding

* `std::vector<node_t> nodes` is a `List (node_t α)`; a `string_trie` is that one field.
* `node_t` derives from `string_trie`, so a node is its `nodes` together with `value`, `c`
  and `word`.
* `string_view_t` is a `List α`; `std::size_t` indices are `Nat` (a word longer than
  `2^64` symbols does not exist in memory, so no wrap-around is modelled).
* A `node_t&` or `node_t*` is the list of child indices that leads from `this` to the node
  (`node_at` dereferences it); the null pointer is `none`.
* The output container `C` is a `List (List α)`; `out.insert(out.end(), x)` is `out ++ [x]`.
* `assert(index < word.size() && "Invalid index")` is the error `invalid_index`.
-/

/-- The node of a trie: the inherited `nodes`, then `value`, `c` and `word`. -/
inductive node_t (α : Type) where
  | mk (nodes : List (node_t α)) (value : List α) (c : α) (word : Bool)

/-- The root of a trie is its array of child nodes. -/
abbrev string_trie (α : Type) := List (node_t α)

namespace node_t

variable {α : Type}

/-- The array of child nodes. -/
def nodes : node_t α → string_trie α
  | mk ns _ _ _ => ns

/-- The cached string value up to this node. -/
def value : node_t α → List α
  | mk _ v _ _ => v

/-- The stored character. -/
def c : node_t α → α
  | mk _ _ x _ => x

/-- Whether this node designates a terminating word. -/
def word : node_t α → Bool
  | mk _ _ _ w => w

end node_t

/-- The ways in which the model of `add` can stop without a result. -/
inductive trie_error where
  | invalid_index
  | out_of_fuel
  deriving DecidableEq, Repr

namespace string_trie

variable {α : Type} [DecidableEq α]

/-- The range-for of `add`: the position and contents of the first node of `nodes`
whose `c` equals `x`, or `none` when the loop runs to its end. -/
def first_match (x : α) : List (node_t α) → Option (Nat × node_t α)
  | [] => none
  | node :: rest =>
    if node.c = x then some (0, node)
    else (first_match x rest).map (fun r => (r.1 + 1, r.2))

/-- The body of `add`, with one unit of fuel per call. It returns the trie as the call
leaves it, and either the child-index path of the returned node or the reason why the
call did not return. -/
def add_fuel : Nat → string_trie α → List α → Nat →
    string_trie α × Except trie_error (List Nat)
  | 0, self, _, _ => (self, .error .out_of_fuel)
  | fuel + 1, self, word, index =>
    if h : index < word.length then
      match first_match word[index] self with
      | some (k, node) =>
        if index + 1 = word.length then
          (self.set k (.mk node.nodes node.value node.c true), .ok [k])
        else
          let r := add_fuel fuel node.nodes word (index + 1)
          (self.set k (.mk r.1 node.value node.c node.word), r.2.map (fun p => k :: p))
      | none =>
        let node : node_t α := .mk [] (word.take (index + 1)) word[index] false
        if index + 1 = word.length then
          (self ++ [.mk node.nodes node.value node.c true], .ok [self.length])
        else
          let r := add_fuel fuel node.nodes word (index + 1)
          (self ++ [.mk r.1 node.value node.c node.word],
            r.2.map (fun p => self.length :: p))
    else (self, .error .invalid_index)

/-- The method `add(word, index)`: each call moves `index` one step towards `word.size()`,
so `word.size() - index + 1` calls are enough. -/
def add (self : string_trie α) (word : List α) (index : Nat) :
    string_trie α × Except trie_error (List Nat) :=
  add_fuel (word.length - index + 1) self word index

mutual
/-- The range-for of the static helper `find`, at the `k`-th node of `self.nodes`. -/
def find_loop (str : List α) (index : Nat) (h : index < str.length) :
    List (node_t α) → Nat → Option (List Nat)
  | [], _ => none
  | node :: rest, k =>
    if node.c = str[index] then
      if index = str.length - 1 then some [k]
      else (node_find node str (index + 1)).map (fun p => k :: p)
    else find_loop str index h rest (k + 1)
/-- The call `node.find(str, index)` on a node, which runs the static helper on it. -/
def node_find : node_t α → List α → Nat → Option (List Nat)
  | .mk ns _ _ _, str, index =>
    if h : index ≥ str.length then none
    else find_loop str index (Nat.lt_of_not_ge h) ns 0
end

/-- The static helper `find(self, str, index)` and with it both `find` methods. -/
def find (self : string_trie α) (str : List α) (index : Nat) : Option (List Nat) :=
  if h : index ≥ str.length then none
  else find_loop str index (Nat.lt_of_not_ge h) self 0

omit [DecidableEq α] in
/-- Dereferences a child-index path; the empty path names no node. -/
def node_at : string_trie α → List Nat → Option (node_t α)
  | _, [] => none
  | self, k :: p =>
    match self[k]? with
    | none => none
    | some node => if p = [] then some node else node_at node.nodes p

end string_trie

mutual
/-- The method `add_word_nodes(out)` called on a node. -/
def node_t.add_word_nodes {α : Type} : node_t α → List (List α) → List (List α)
  | .mk ns _ _ _, out => string_trie.add_word_nodes ns out
/-- The method `add_word_nodes(out)`: the range-for over `nodes`. -/
def string_trie.add_word_nodes {α : Type} : string_trie α → List (List α) → List (List α)
  | [], out => out
  | node :: rest, out =>
    string_trie.add_word_nodes rest
      (node.add_word_nodes (if node.word then out ++ [node.value] else out))
end

namespace string_trie

variable {α : Type} [DecidableEq α]

/-- The method `words(out, str)`. -/
def words (self : string_trie α) (out : List (List α)) (str : List α) : List (List α) :=
  match find self str 0 with
  | none => out
  | some p =>
    match node_at self p with
    | none => out
    | some node => node.add_word_nodes (if node.word then out ++ [node.value] else out)

/-- A sequence of calls `add(word, index)`, each on the trie the previous one left; it
stops at the first call that does not return. -/
def add_all : string_trie α → List (List α × Nat) → Except trie_error (string_trie α)
  | self, [] => .ok self
  | self, (word, index) :: rest =>
    match add self word index with
    | (t, .ok _) => add_all t rest
    | (_, .error e) => .error e

/-- The trie built from the empty root by `add(word)` for each word in turn. -/
def build (ws : List (List α)) : Except trie_error (string_trie α) :=
  add_all [] (ws.map (fun w => (w, 0)))

end string_trie

/-! ## Recursive descriptions of `add` and `find`

`grow`, `grow_ptr` and `walk` follow the rest of the word symbol by symbol. The theorems
`add_eq` and `find_eq_walk` show that they compute what `add` and `find` compute. -/

namespace string_trie

variable {α : Type} [DecidableEq α]

/-- The trie that `add` leaves, by recursion on the part of the word still to be read:
`pre` is the word before `index`, the third argument the word from `index` on. -/
def grow : string_trie α → List α → List α → string_trie α
  | t, _, [] => t
  | t, pre, x :: rest =>
    match first_match x t with
    | some (k, n) =>
      t.set k (if rest = [] then .mk n.nodes n.value n.c true
        else .mk (grow n.nodes (pre ++ [x]) rest) n.value n.c n.word)
    | none =>
      t ++ [if rest = [] then .mk [] (pre ++ [x]) x true
        else .mk (grow [] (pre ++ [x]) rest) (pre ++ [x]) x false]

/-- The path of the node that `add` returns, by recursion on the rest of the word. -/
def grow_ptr : string_trie α → List α → List Nat
  | _, [] => []
  | t, x :: rest =>
    match first_match x t with
    | some (k, n) => k :: (if rest = [] then [] else grow_ptr n.nodes rest)
    | none => t.length :: (if rest = [] then [] else grow_ptr [] rest)

/-- The walk of `find` along a string: the path it takes and the node it ends in. -/
def walk : string_trie α → List α → Option (List Nat × node_t α)
  | _, [] => none
  | t, x :: rest =>
    match first_match x t with
    | none => none
    | some (k, n) =>
      if rest = [] then some ([k], n)
      else (walk n.nodes rest).map (fun r => (k :: r.1, r.2))

/-- The node in which the walk of `find` along a string ends. -/
def lookup (t : string_trie α) (s : List α) : Option (node_t α) :=
  (walk t s).map Prod.snd

/-- The node that `add` pushes for the symbol `x`, before it is marked or filled. -/
def fresh (v : List α) (x : α) : node_t α := .mk [] v x false

/-- What `add` makes of the node at the end of `s` when `r` is the rest of the word: the
node is marked when `r` is empty, and the rest is added below it otherwise. -/
def touch (pre s r : List α) (old : node_t α) : node_t α :=
  .mk (if r = [] then old.nodes else grow old.nodes (pre ++ s) r) old.value old.c
    (old.word || decide (r = []))

/-- Whether the walk along `s` ends in a node marked as a word. -/
def is_word (t : string_trie α) (s : List α) : Bool :=
  match lookup t s with
  | some n => n.word
  | none => false

/-- Whether the walk along `s` ends in a node. -/
def has_path (t : string_trie α) (s : List α) : Bool :=
  (lookup t s).isSome

/-- The tries that `add(word)` builds from the empty root, word by word. -/
def grow_all (t : string_trie α) (ws : List (List α)) : string_trie α :=
  ws.foldl (fun acc w => grow acc [] w) t

end string_trie

mutual
/-- No node below this one has two children with the same `c`. -/
def node_t.distinct {α : Type} : node_t α → Prop
  | .mk ns _ _ _ => string_trie.distinct ns
/-- No two of these nodes have the same `c`, and so on below each of them. -/
def string_trie.distinct {α : Type} : string_trie α → Prop
  | [] => True
  | n :: ns => (n.distinct ∧ ∀ m ∈ ns, m.c ≠ n.c) ∧ string_trie.distinct ns
end

mutual
/-- Below this node every `value` is the parent's `value` followed by the node's `c`. -/
def node_t.cached {α : Type} : node_t α → Prop
  | .mk ns v _ _ => string_trie.cached ns v
/-- Every `value` of these nodes is `pre` followed by the node's `c`, and so on below. -/
def string_trie.cached {α : Type} : string_trie α → List α → Prop
  | [], _ => True
  | n :: ns, pre => (n.value = pre ++ [n.c] ∧ n.cached) ∧ string_trie.cached ns pre
end

mutual
/-- The sequence `pre(n)` of the specification: the `value` of the node if its `word`
flag is set, followed by `pre(child)` for each child in stored order. -/
def node_t.pre_order {α : Type} : node_t α → List (List α)
  | .mk ns v _ w => (if w then [v] else []) ++ string_trie.pre_order ns
/-- The sequences `pre(child)` of these nodes, one after the other. -/
def string_trie.pre_order {α : Type} : string_trie α → List (List α)
  | [] => []
  | n :: ns => n.pre_order ++ string_trie.pre_order ns
end

mutual
/-- Below this node, and at it, a node without children has its `word` flag set. -/
def node_t.marked {α : Type} : node_t α → Prop
  | .mk ns _ _ w => (ns = [] → w = true) ∧ string_trie.marked ns
/-- Among these nodes and below them, a node without children has its `word` flag set. -/
def string_trie.marked {α : Type} : string_trie α → Prop
  | [] => True
  | n :: ns => n.marked ∧ string_trie.marked ns
end

namespace string_trie

variable {α : Type} [DecidableEq α]

/-- The symbol that follows `q` in the word `w`, when `w` starts with `q` and goes on. -/
def following (q w : List α) : Option α :=
  if q <+: w then w[q.length]? else none

/-- The list of symbols seen so far, with one more symbol put at its end if it is new. -/
def record (acc : List α) : Option α → List α
  | none => acc
  | some x => if x ∈ acc then acc else acc ++ [x]

/-- The distinct symbols that follow `q` in the words `ws`, in the order of the first
word in which each of them occurs. -/
def next_symbols (q : List α) (ws : List (List α)) : List α :=
  ws.foldl (fun acc w => record acc (following q w)) []

/-- The symbols `c` of the children of the node at the end of the walk along `q`, in
stored order; the children of the root when `q` is empty. -/
def children_symbols (t : string_trie α) (q : List α) : List α :=
  if q = [] then t.map node_t.c
  else
    match lookup t q with
    | some n => n.nodes.map node_t.c
    | none => []

/-- The symbols `c` met along a child-index path. -/
def path_symbols : string_trie α → List Nat → List α
  | _, [] => []
  | t, k :: p =>
    match t[k]? with
    | none => []
    | some n => n.c :: path_symbols n.nodes p

/-! ## The range-for -/

theorem first_match_some {x : α} : ∀ {t : string_trie α} {k : Nat} {n : node_t α},
    first_match x t = some (k, n) → t[k]? = some n ∧ n.c = x := by
  intro t
  induction t with
  | nil => intro k n h; simp [first_match] at h
  | cons a as ih =>
    intro k n h
    rw [first_match] at h
    split_ifs at h with hc
    · simp only [Option.some.injEq, Prod.mk.injEq] at h
      obtain ⟨rfl, rfl⟩ := h
      exact ⟨by simp, hc⟩
    · cases hfm : first_match x as with
      | none => simp [hfm] at h
      | some r =>
        obtain ⟨j, m⟩ := r
        simp only [hfm, Option.map_some', Option.some.injEq, Prod.mk.injEq] at h
        obtain ⟨rfl, rfl⟩ := h
        simpa using ih hfm

theorem first_match_none {x : α} : ∀ {t : string_trie α},
    first_match x t = none ↔ ∀ n ∈ t, n.c ≠ x := by
  intro t
  induction t with
  | nil => simp [first_match]
  | cons a as ih =>
    rw [first_match]
    split_ifs with hc
    · simp [hc]
    · simp [hc, ih]

theorem first_match_lt {x : α} {t : string_trie α} {k : Nat} {n : node_t α}
    (h : first_match x t = some (k, n)) : k < t.length := by
  have := (first_match_some h).1
  exact (List.getElem?_eq_some_iff.1 this).1

theorem first_match_set {y : α} {n' : node_t α} : ∀ {t : string_trie α} {k : Nat}
    {n : node_t α}, t[k]? = some n → n'.c = n.c →
    first_match y (t.set k n') =
      (first_match y t).map (fun r => if r.1 = k then (k, n') else r) := by
  intro t
  induction t with
  | nil => intro k n h; simp at h
  | cons a as ih =>
    intro k n h hc
    cases k with
    | zero =>
      simp only [List.getElem?_cons_zero, Option.some.injEq] at h
      subst h
      simp only [List.set_cons_zero, first_match, hc]
      split_ifs with h1
      · simp
      · simp [Option.map_map, Function.comp_def]
    | succ k =>
      simp only [List.getElem?_cons_succ] at h
      simp only [List.set_cons_succ, first_match]
      split_ifs with h1
      · simp
      · rw [ih h hc]
        cases first_match y as with
        | none => rfl
        | some r =>
          simp only [Option.map_some', Option.some.injEq]
          split_ifs with h2 h3 h3
          · rfl
          · exact absurd (by omega) h3
          · exact absurd (by omega) h2
          · rfl

theorem first_match_append_some {y : α} {m : node_t α} {r : Nat × node_t α} :
    ∀ {t : string_trie α}, first_match y t = some r → first_match y (t ++ [m]) = some r := by
  intro t
  induction t generalizing r with
  | nil => intro h; simp [first_match] at h
  | cons a as ih =>
    intro h
    rw [first_match] at h
    rw [List.cons_append, first_match]
    split_ifs at h ⊢ with h1
    · exact h
    · cases hfm : first_match y as with
      | none => simp [hfm] at h
      | some q => rw [ih hfm]; rw [hfm] at h; exact h

theorem first_match_append_none {y : α} {m : node_t α} : ∀ {t : string_trie α},
    first_match y t = none →
    first_match y (t ++ [m]) = if m.c = y then some (t.length, m) else none := by
  intro t
  induction t with
  | nil => intro _; simp [first_match]
  | cons a as ih =>
    intro h
    rw [first_match] at h
    rw [List.cons_append, first_match]
    split_ifs at h ⊢ with h1 h2
    · simp only [Option.map_eq_none'] at h
      rw [ih h, if_pos h2]; rfl
    · simp only [Option.map_eq_none'] at h
      rw [ih h, if_neg h2]; rfl

end string_trie

namespace string_trie

variable {α : Type} [DecidableEq α]

/-! ## `add` computes `grow` and `grow_ptr` -/

theorem add_fuel_eq (word : List α) : ∀ (fuel : Nat) (t : string_trie α) (index : Nat),
    index < word.length → word.length ≤ index + fuel →
    add_fuel fuel t word index =
      (grow t (word.take index) (word.drop index), .ok (grow_ptr t (word.drop index))) := by
  intro fuel
  induction fuel with
  | zero => intro t index h1 h2; omega
  | succ fuel ih =>
    intro t index h1 h2
    have hd : word.drop index = word[index] :: word.drop (index + 1) :=
      List.drop_eq_getElem_cons h1
    have ht : word.take (index + 1) = word.take index ++ [word[index]] := by
      rw [List.take_succ, List.getElem?_eq_getElem h1]; rfl
    have hlast : (word.drop (index + 1) = []) ↔ index + 1 = word.length := by
      rw [List.drop_eq_nil_iff]; omega
    rw [add_fuel, dif_pos h1, hd, grow, grow_ptr]
    cases hfm : first_match word[index] t with
    | none =>
      by_cases hl : index + 1 = word.length
      · simp only [if_pos hl, if_pos (hlast.2 hl), node_t.nodes, node_t.value, node_t.c, ht]
      · have hne : ¬ word.drop (index + 1) = [] := fun h => hl (hlast.1 h)
        simp only [if_neg hl, if_neg hne, node_t.nodes, node_t.value, node_t.c, node_t.word]
        rw [ih [] (index + 1) (by omega) (by omega), ht]
        rfl
    | some r =>
      obtain ⟨k, n⟩ := r
      by_cases hl : index + 1 = word.length
      · simp only [if_pos hl, if_pos (hlast.2 hl)]
      · have hne : ¬ word.drop (index + 1) = [] := fun h => hl (hlast.1 h)
        simp only [if_neg hl, if_neg hne]
        rw [ih n.nodes (index + 1) (by omega) (by omega), ht]
        rfl

theorem add_eq (t : string_trie α) (word : List α) (index : Nat) (h : index < word.length) :
    add t word index =
      (grow t (word.take index) (word.drop index), .ok (grow_ptr t (word.drop index))) :=
  add_fuel_eq word _ t index h (by omega)

theorem add_zero_eq (t : string_trie α) (word : List α) (h : word ≠ []) :
    add t word 0 = (grow t [] word, .ok (grow_ptr t word)) := by
  have := add_eq t word 0 (List.length_pos.2 h)
  simpa using this

theorem add_invalid (t : string_trie α) (word : List α) (index : Nat)
    (h : word.length ≤ index) : add t word index = (t, .error .invalid_index) := by
  simp [add, add_fuel, Nat.not_lt.2 h]

/-! ## `find` computes `walk` -/

theorem node_find_eq (n : node_t α) (s : List α) (i : Nat) :
    node_find n s i = find n.nodes s i := by
  cases n; rfl

theorem find_loop_eq (s : List α) (i : Nat) (h : i < s.length) :
    ∀ (ns : List (node_t α)) (k : Nat), find_loop s i h ns k =
      match first_match s[i] ns with
      | none => none
      | some (j, n) =>
        if i = s.length - 1 then some [k + j]
        else (find n.nodes s (i + 1)).map (fun p => (k + j) :: p) := by
  intro ns
  induction ns with
  | nil => intro k; simp [find_loop, first_match]
  | cons a as ih =>
    intro k
    rw [find_loop, first_match]
    by_cases h1 : a.c = s[i]
    · simp only [if_pos h1, node_find_eq, Nat.add_zero]
    · simp only [if_neg h1]
      rw [ih]
      cases first_match s[i] as with
      | none => rfl
      | some r =>
        simp only [Option.map_some']
        rw [Nat.add_assoc, Nat.add_comm 1]

theorem find_eq_walk (s : List α) : ∀ (m : Nat) (t : string_trie α) (i : Nat),
    s.length - i ≤ m → find t s i = (walk t (s.drop i)).map Prod.fst := by
  intro m
  induction m with
  | zero =>
    intro t i h
    have h1 : s.length ≤ i := by omega
    simp [find, h1, List.drop_eq_nil_of_le h1, walk]
  | succ m ih =>
    intro t i h
    by_cases h1 : s.length ≤ i
    · simp [find, h1, List.drop_eq_nil_of_le h1, walk]
    · have h2 : i < s.length := by omega
      have hlast : (s.drop (i + 1) = []) ↔ i = s.length - 1 := by
        rw [List.drop_eq_nil_iff]; omega
      rw [find, dif_neg (by omega), find_loop_eq, List.drop_eq_getElem_cons h2, walk]
      cases first_match s[i] t with
      | none => rfl
      | some r =>
        obtain ⟨k, n⟩ := r
        by_cases hl : i = s.length - 1
        · simp only [if_pos hl, if_pos (hlast.2 hl), Nat.zero_add, Option.map_some']
        · have hne : ¬ s.drop (i + 1) = [] := fun h => hl (hlast.1 h)
          simp only [if_neg hl, if_neg hne]
          rw [ih n.nodes (i + 1) (by omega)]
          simp [Option.map_map, Function.comp_def]

theorem find_zero_eq (t : string_trie α) (s : List α) :
    find t s 0 = (walk t s).map Prod.fst := by
  simpa using find_eq_walk s s.length t 0 (by omega)

theorem walk_node_at : ∀ (s : List α) (t : string_trie α) (p : List Nat) (n : node_t α),
    walk t s = some (p, n) → node_at t p = some n := by
  intro s
  induction s with
  | nil => intro t p n h; simp [walk] at h
  | cons x rest ih =>
    intro t p n h
    rw [walk] at h
    cases hfm : first_match x t with
    | none => simp [hfm] at h
    | some r =>
      obtain ⟨k, m⟩ := r
      have hk := (first_match_some hfm).1
      simp only [hfm] at h
      split_ifs at h with h1
      · simp only [Option.some.injEq, Prod.mk.injEq] at h
        obtain ⟨rfl, rfl⟩ := h
        simp [node_at, hk]
      · cases hw : walk m.nodes rest with
        | none => simp [hw] at h
        | some q =>
          obtain ⟨p', n'⟩ := q
          simp only [hw, Option.map_some', Option.some.injEq, Prod.mk.injEq] at h
          obtain ⟨rfl, rfl⟩ := h
          have hp : p' ≠ [] := by
            intro hp
            subst hp
            cases rest with
            | nil => exact h1 rfl
            | cons y ys =>
              rw [walk] at hw
              cases hf2 : first_match y m.nodes with
              | none => simp [hf2] at hw
              | some r2 =>
                simp only [hf2] at hw
                split_ifs at hw
                · simp at hw
                · cases hw2 : walk r2.2.nodes ys with
                  | none => simp [hw2] at hw
                  | some q2 => simp [hw2] at hw
          simp [node_at, hk, hp, ih m.nodes p' n' hw]

theorem lookup_nil (t : string_trie α) : lookup t [] = none := rfl

theorem lookup_cons (t : string_trie α) (x : α) (rest : List α) :
    lookup t (x :: rest) =
      match first_match x t with
      | none => none
      | some (_, n) => if rest = [] then some n else lookup n.nodes rest := by
  rw [lookup, walk]
  cases first_match x t with
  | none => rfl
  | some r =>
    obtain ⟨k, n⟩ := r
    simp only
    split_ifs
    · rfl
    · simp [lookup, Option.map_map, Function.comp_def]

/-- The node that `find(s)` points to is the node at the end of the walk along `s`. -/
theorem find_node_at (t : string_trie α) (s : List α) :
    (find t s 0).bind (node_at t) = lookup t s := by
  rw [find_zero_eq, lookup]
  cases hw : walk t s with
  | none => rfl
  | some r =>
    obtain ⟨p, n⟩ := r
    simp [walk_node_at s t p n hw]

end string_trie

namespace string_trie

variable {α : Type} [DecidableEq α]

/-! ## The walk of `find` after `add` -/

theorem grow_cons (t : string_trie α) (pre : List α) (x : α) (rest : List α) :
    grow t pre (x :: rest) =
      match first_match x t with
      | some (k, n) => t.set k (touch pre [x] rest n)
      | none => t ++ [touch pre [x] rest (fresh (pre ++ [x]) x)] := by
  rw [grow]
  cases first_match x t with
  | none =>
    by_cases h : rest = [] <;> simp [touch, fresh, h, node_t.nodes, node_t.value, node_t.c,
      node_t.word]
  | some r =>
    obtain ⟨k, n⟩ := r
    by_cases h : rest = [] <;> simp [touch, h, node_t.nodes, node_t.value, node_t.c,
      node_t.word]

theorem first_match_grow_same (t : string_trie α) (pre : List α) (x : α) (rest : List α) :
    ∃ k, first_match x (grow t pre (x :: rest)) = some (k, touch pre [x] rest
      (match first_match x t with
        | some (_, n) => n
        | none => fresh (pre ++ [x]) x)) := by
  rw [grow_cons]
  cases hfm : first_match x t with
  | none =>
    refine ⟨t.length, ?_⟩
    simp only
    rw [first_match_append_none hfm, if_pos]
    simp [touch, fresh, node_t.c]
  | some r =>
    obtain ⟨k, n⟩ := r
    refine ⟨k, ?_⟩
    simp only
    rw [first_match_set (first_match_some hfm).1 (by simp [touch, node_t.c]), hfm]
    simp

theorem first_match_grow_other (t : string_trie α) (pre : List α) (x y : α)
    (rest : List α) (hxy : y ≠ x) :
    (first_match y (grow t pre (x :: rest))).map Prod.snd =
      (first_match y t).map Prod.snd := by
  rw [grow_cons]
  cases hfm : first_match x t with
  | none =>
    simp only
    cases hy : first_match y t with
    | none =>
      rw [first_match_append_none hy, if_neg]
      simpa [touch, fresh, node_t.c] using fun h => hxy h.symm
    | some r => rw [first_match_append_some hy]
  | some r =>
    obtain ⟨k, n⟩ := r
    simp only
    rw [first_match_set (first_match_some hfm).1 (by simp [touch, node_t.c])]
    cases hy : first_match y t with
    | none => rfl
    | some q =>
      obtain ⟨j, m⟩ := q
      have hjk : j ≠ k := by
        rintro rfl
        have h1 := first_match_some hfm
        have h2 := first_match_some hy
        rw [h1.1] at h2
        simp only [Option.some.injEq] at h2
        obtain ⟨rfl, h3⟩ := h2
        exact hxy (h3.symm.trans h1.2)
      simp [hjk]

theorem lookup_empty (s : List α) : lookup ([] : string_trie α) s = none := by
  cases s with
  | nil => rfl
  | cons x rest => simp [lookup_cons, first_match]

/-- A walk that leaves the added word, or goes beyond its end, ends where it ended. -/
theorem lookup_grow_other : ∀ (suf : List α) (t : string_trie α) (pre s : List α),
    ¬ (s ≠ [] ∧ s <+: suf) → lookup (grow t pre suf) s = lookup t s := by
  intro suf
  induction suf with
  | nil => intro t pre s _; rfl
  | cons x rest ih =>
    intro t pre s hs
    cases s with
    | nil => rfl
    | cons y s' =>
      by_cases hxy : y = x
      · subst hxy
        have hs' : ¬ (s' ≠ [] ∧ s' <+: rest) := by
          intro h
          exact hs ⟨by simp, by simpa [List.cons_prefix_cons] using h.2⟩
        have hne : s' ≠ [] := by
          rintro rfl
          exact hs ⟨by simp, by simp [List.cons_prefix_cons]⟩
        obtain ⟨k, hk⟩ := first_match_grow_same t pre y rest
        rw [lookup_cons, lookup_cons, hk]
        simp only [if_neg hne]
        cases hfm : first_match y t with
        | none =>
          simp only [touch, fresh, node_t.nodes]
          by_cases hr : rest = []
          · simp [hr, lookup_empty]
          · simp only [if_neg hr]
            rw [ih _ _ _ hs', lookup_empty]
        | some r =>
          obtain ⟨j, n⟩ := r
          simp only [touch, node_t.nodes]
          by_cases hr : rest = []
          · simp [hr]
          · simp only [if_neg hr]
            rw [ih _ _ _ hs']
      · have h := first_match_grow_other t pre x y rest hxy
        rw [lookup_cons, lookup_cons]
        cases h1 : first_match y (grow t pre (x :: rest)) with
        | none =>
          rw [h1] at h
          cases h2 : first_match y t with
          | none => rfl
          | some q => rw [h2] at h; simp at h
        | some r =>
          rw [h1] at h
          cases h2 : first_match y t with
          | none => rw [h2] at h; simp at h
          | some q =>
            rw [h2] at h
            simp only [Option.map_some', Option.some.injEq] at h
            obtain ⟨k, n⟩ := r
            obtain ⟨j, m⟩ := q
            simp only at h
            subst h
            rfl

/-- A walk along a non-empty prefix of the added word ends in the touched node. -/
theorem lookup_grow_along : ∀ (s : List α) (hs : s ≠ []) (t : string_trie α)
    (pre r : List α),
    lookup (grow t pre (s ++ r)) s =
      some (touch pre s r ((lookup t s).getD (fresh (pre ++ s) (s.getLast hs)))) := by
  intro s
  induction s with
  | nil => intro hs; exact absurd rfl hs
  | cons x s' ih =>
    intro hs t pre r
    obtain ⟨k, hk⟩ := first_match_grow_same t pre x (s' ++ r)
    rw [List.cons_append, lookup_cons, hk, lookup_cons]
    simp only
    by_cases hs' : s' = []
    · subst hs'
      cases hfm : first_match x t with
      | none => simp
      | some q => simp
    · simp only [if_neg hs']
      have hne : ¬ s' ++ r = [] := by simp [hs']
      have e1 : ∀ old : node_t α, (touch pre [x] (s' ++ r) old).nodes =
          grow old.nodes (pre ++ [x]) (s' ++ r) := by
        intro old; simp [touch, node_t.nodes, hne]
      have e2 : ∀ old : node_t α, touch (pre ++ [x]) s' r old = touch pre (x :: s') r old := by
        intro old; simp [touch]
      rw [e1, ih hs']
      cases hfm : first_match x t with
      | none =>
        simp [fresh, node_t.nodes, lookup_empty, List.getLast_cons hs', e2]
      | some q =>
        simp [List.getLast_cons hs', e2]

end string_trie

namespace string_trie

variable {α : Type} [DecidableEq α]

/-! ## Which walks end in a word, and which end at all -/

theorem touch_word (pre s r : List α) (old : node_t α) :
    (touch pre s r old).word = (old.word || decide (r = [])) := rfl

theorem touch_value (pre s r : List α) (old : node_t α) :
    (touch pre s r old).value = old.value := rfl

theorem touch_c (pre s r : List α) (old : node_t α) : (touch pre s r old).c = old.c := rfl

theorem is_word_nil (t : string_trie α) : is_word t [] = false := rfl

theorem is_word_grow (t : string_trie α) (pre suf s : List α) (hsuf : suf ≠ []) :
    is_word (grow t pre suf) s = (decide (s = suf) || is_word t s) := by
  by_cases hp : s ≠ [] ∧ s <+: suf
  · obtain ⟨hs, r, rfl⟩ := hp
    rw [is_word, lookup_grow_along s hs]
    simp only [touch_word]
    have e : decide (s = s ++ r) = decide (r = []) := by
      by_cases hr : r = [] <;> simp [hr]
    rw [e, is_word]
    cases lookup t s with
    | none => simp [fresh, node_t.word]
    | some n => simp [Bool.or_comm]
  · rw [is_word, lookup_grow_other suf t pre s hp]
    have e : decide (s = suf) = false := by
      simp only [decide_eq_false_iff_not]
      rintro rfl
      exact hp ⟨hsuf, List.prefix_refl _⟩
    rw [e, Bool.false_or, is_word]

theorem has_path_grow (t : string_trie α) (pre suf s : List α) :
    has_path (grow t pre suf) s = (decide (s ≠ [] ∧ s <+: suf) || has_path t s) := by
  by_cases hp : s ≠ [] ∧ s <+: suf
  · obtain ⟨hs, r, rfl⟩ := hp
    rw [has_path, lookup_grow_along s hs]
    simp [hs]
  · rw [has_path, lookup_grow_other suf t pre s hp, has_path]
    simp [hp]

theorem is_word_grow_all : ∀ (ws : List (List α)) (t : string_trie α) (s : List α),
    (∀ w ∈ ws, w ≠ []) → is_word (grow_all t ws) s = (decide (s ∈ ws) || is_word t s) := by
  intro ws
  induction ws with
  | nil => intro t s _; simp [grow_all]
  | cons w ws ih =>
    intro t s h
    have hw : w ≠ [] := h w (by simp)
    have h' : ∀ v ∈ ws, v ≠ [] := fun v hv => h v (by simp [hv])
    have e : grow_all t (w :: ws) = grow_all (grow t [] w) ws := rfl
    rw [e, ih _ _ h', is_word_grow _ _ _ _ hw]
    by_cases h1 : s = w <;> by_cases h2 : s ∈ ws <;> simp [h1, h2]

theorem has_path_grow_all : ∀ (ws : List (List α)) (t : string_trie α) (s : List α),
    has_path (grow_all t ws) s =
      (decide (s ≠ [] ∧ ∃ w ∈ ws, s <+: w) || has_path t s) := by
  intro ws
  induction ws with
  | nil => intro t s; simp [grow_all]
  | cons w ws ih =>
    intro t s
    have e : grow_all t (w :: ws) = grow_all (grow t [] w) ws := rfl
    rw [e, ih, has_path_grow]
    by_cases h0 : s = []
    · simp [h0]
    · by_cases h1 : s <+: w <;> by_cases h2 : ∃ v ∈ ws, s <+: v <;> simp [h0, h1, h2]

theorem is_word_empty (s : List α) : is_word ([] : string_trie α) s = false := by
  simp [is_word, lookup_empty]

theorem has_path_empty (s : List α) : has_path ([] : string_trie α) s = false := by
  simp [has_path, lookup_empty]

/-! ## Sequences of calls -/

theorem add_all_eq : ∀ (calls : List (List α × Nat)) (t : string_trie α),
    (∀ c ∈ calls, c.2 < c.1.length) →
    add_all t calls =
      .ok (calls.foldl (fun acc c => grow acc (c.1.take c.2) (c.1.drop c.2)) t) := by
  intro calls
  induction calls with
  | nil => intro t _; rfl
  | cons c calls ih =>
    intro t h
    obtain ⟨w, i⟩ := c
    have hc : i < w.length := h (w, i) (by simp)
    rw [add_all, add_eq t w i hc]
    simp only [List.foldl_cons]
    exact ih _ (fun c hc' => h c (by simp [hc']))

theorem build_eq (ws : List (List α)) (h : ∀ w ∈ ws, w ≠ []) :
    build ws = .ok (grow_all [] ws) := by
  rw [build, add_all_eq]
  · rw [List.foldl_map]
    simp [grow_all]
  · intro c hc
    simp only [List.mem_map] at hc
    obtain ⟨w, hw, rfl⟩ := hc
    exact List.length_pos.2 (h w hw)

end string_trie

namespace string_trie

variable {α : Type} [DecidableEq α]

/-! ## The two invariants -/

omit [DecidableEq α] in
theorem distinct_iff : ∀ (t : string_trie α),
    distinct t ↔ (t.map node_t.c).Nodup ∧ ∀ n ∈ t, distinct n.nodes := by
  intro t
  induction t with
  | nil => simp [distinct]
  | cons a as ih =>
    have ha : a.distinct ↔ distinct a.nodes := by cases a; simp [node_t.distinct, node_t.nodes]
    rw [distinct, ih, ha]
    simp only [List.map_cons, List.nodup_cons, List.mem_map, List.mem_cons, forall_eq_or_imp,
      not_exists, not_and]
    tauto

omit [DecidableEq α] in
theorem cached_iff : ∀ (t : string_trie α) (pre : List α),
    cached t pre ↔ ∀ n ∈ t, n.value = pre ++ [n.c] ∧ cached n.nodes n.value := by
  intro t pre
  induction t with
  | nil => simp [cached]
  | cons a as ih =>
    have ha : a.cached ↔ cached a.nodes a.value := by
      cases a; simp [node_t.cached, node_t.nodes, node_t.value]
    rw [cached, ih, ha]
    simp

omit [DecidableEq α] in
theorem distinct_nil : distinct ([] : string_trie α) := by simp [distinct]

omit [DecidableEq α] in
theorem cached_nil (pre : List α) : cached ([] : string_trie α) pre := by simp [cached]

theorem distinct_grow : ∀ (suf : List α) (t : string_trie α) (pre : List α),
    distinct t → distinct (grow t pre suf) := by
  intro suf
  induction suf with
  | nil => intro t pre h; exact h
  | cons x rest ih =>
    intro t pre h
    rw [distinct_iff] at h
    have hnodes : ∀ old : node_t α, distinct old.nodes →
        distinct (touch pre [x] rest old).nodes := by
      intro old ho
      by_cases hr : rest = []
      · simpa [touch, node_t.nodes, hr] using ho
      · simpa [touch, node_t.nodes, hr] using ih _ _ ho
    rw [grow_cons]
    cases hfm : first_match x t with
    | none =>
      simp only
      rw [distinct_iff]
      constructor
      · rw [List.map_append, List.nodup_append]
        refine ⟨h.1, by simp, ?_⟩
        simp only [List.map_cons, List.map_nil, List.disjoint_singleton, List.mem_map,
          not_exists, not_and]
        intro n hn
        simpa [touch, fresh, node_t.c] using first_match_none.1 hfm n hn
      · intro n hn
        rw [List.mem_append] at hn
        rcases hn with hn | hn
        · exact h.2 n hn
        · simp only [List.mem_singleton] at hn
          subst hn
          exact hnodes _ (by simp [fresh, node_t.nodes, distinct_nil])
    | some r =>
      obtain ⟨k, n⟩ := r
      have hk := first_match_some hfm
      have hmem : n ∈ t := List.getElem?_mem hk.1
      simp only
      rw [distinct_iff]
      constructor
      · have e : (t.set k (touch pre [x] rest n)).map node_t.c = t.map node_t.c := by
          rw [List.map_set, touch_c]
          apply List.ext_getElem?
          intro i
          rw [List.getElem?_set]
          split_ifs with h1 h2
          · subst h1; simp [hk.1]
          · subst h1
            simp only [List.length_map] at h2
            exact absurd (first_match_lt hfm) h2
          · rfl
        rw [e]; exact h.1
      · intro m hm
        rcases List.mem_or_eq_of_mem_set hm with hm | hm
        · exact h.2 m hm
        · subst hm
          exact hnodes _ (h.2 n hmem)

theorem cached_grow : ∀ (suf : List α) (t : string_trie α) (pre : List α),
    cached t pre → cached (grow t pre suf) pre := by
  intro suf
  induction suf with
  | nil => intro t pre h; exact h
  | cons x rest ih =>
    intro t pre h
    rw [cached_iff] at h
    have hnodes : ∀ old : node_t α, old.value = pre ++ [x] → cached old.nodes old.value →
        cached (touch pre [x] rest old).nodes (touch pre [x] rest old).value := by
      intro old hv ho
      by_cases hr : rest = []
      · simpa [touch, node_t.nodes, node_t.value, hr] using ho
      · rw [touch_value]
        simp only [touch, node_t.nodes, if_neg hr]
        rw [hv] at ho ⊢
        exact ih _ _ ho
    rw [grow_cons]
    cases hfm : first_match x t with
    | none =>
      simp only
      rw [cached_iff]
      intro n hn
      rw [List.mem_append] at hn
      rcases hn with hn | hn
      · exact h n hn
      · simp only [List.mem_singleton] at hn
        subst hn
        refine ⟨by simp [touch, fresh, node_t.value, node_t.c], hnodes _ ?_ ?_⟩
        · simp [fresh, node_t.value]
        · simp [fresh, node_t.nodes, cached_nil]
    | some r =>
      obtain ⟨k, n⟩ := r
      have hk := first_match_some hfm
      have hmem : n ∈ t := List.getElem?_mem hk.1
      simp only
      rw [cached_iff]
      intro m hm
      rcases List.mem_or_eq_of_mem_set hm with hm | hm
      · exact h m hm
      · subst hm
        have hn := h n hmem
        refine ⟨by rw [touch_value, touch_c]; exact hn.1, hnodes _ ?_ hn.2⟩
        rw [hn.1, hk.2]

theorem distinct_foldl : ∀ (calls : List (List α × Nat)) (t : string_trie α),
    distinct t →
    distinct (calls.foldl (fun acc c => grow acc (c.1.take c.2) (c.1.drop c.2)) t) := by
  intro calls
  induction calls with
  | nil => intro t h; exact h
  | cons c calls ih => intro t h; exact ih _ (distinct_grow _ _ _ h)

theorem distinct_grow_all : ∀ (ws : List (List α)) (t : string_trie α),
    distinct t → distinct (grow_all t ws) := by
  intro ws
  induction ws with
  | nil => intro t h; exact h
  | cons w ws ih => intro t h; exact ih _ (distinct_grow _ _ _ h)

theorem cached_grow_all : ∀ (ws : List (List α)) (t : string_trie α),
    cached t [] → cached (grow_all t ws) [] := by
  intro ws
  induction ws with
  | nil => intro t h; exact h
  | cons w ws ih => intro t h; exact ih _ (cached_grow _ _ _ h)

end string_trie

namespace string_trie

variable {α : Type} [DecidableEq α]

/-! ## The invariants along a path -/

omit [DecidableEq α] in
theorem distinct_at : ∀ (p : List Nat) (t : string_trie α) (n : node_t α),
    distinct t → node_at t p = some n → distinct n.nodes := by
  intro p
  induction p with
  | nil => intro t n _ h; simp [node_at] at h
  | cons k p ih =>
    intro t n hd h
    rw [node_at] at h
    cases hk : t[k]? with
    | none => simp [hk] at h
    | some m =>
      have hm : distinct m.nodes := ((distinct_iff t).1 hd).2 m (List.getElem?_mem hk)
      simp only [hk] at h
      split_ifs at h with hp
      · simp only [Option.some.injEq] at h
        subst h
        exact hm
      · exact ih _ _ hm h

omit [DecidableEq α] in
theorem cached_at : ∀ (p : List Nat) (t : string_trie α) (pre : List α) (n : node_t α),
    cached t pre → node_at t p = some n → n.value = pre ++ path_symbols t p := by
  intro p
  induction p with
  | nil => intro t pre n _ h; simp [node_at] at h
  | cons k p ih =>
    intro t pre n hc h
    rw [node_at] at h
    cases hk : t[k]? with
    | none => simp [hk] at h
    | some m =>
      have hm := ((cached_iff t pre).1 hc) m (List.getElem?_mem hk)
      simp only [hk] at h
      rw [path_symbols]
      simp only [hk]
      split_ifs at h with hp
      · simp only [Option.some.injEq] at h
        subst h
        subst hp
        simpa [path_symbols] using hm.1
      · rw [ih _ _ _ hm.2 h, hm.1]
        simp

theorem lookup_cached : ∀ (s : List α) (t : string_trie α) (pre : List α) (n : node_t α),
    cached t pre → lookup t s = some n → n.value = pre ++ s ∧ cached n.nodes n.value := by
  intro s
  induction s with
  | nil => intro t pre n _ h; simp [lookup_nil] at h
  | cons x rest ih =>
    intro t pre n hc h
    rw [lookup_cons] at h
    cases hfm : first_match x t with
    | none => simp [hfm] at h
    | some r =>
      obtain ⟨k, m⟩ := r
      have hk := first_match_some hfm
      have hm := ((cached_iff t pre).1 hc) m (List.getElem?_mem hk.1)
      simp only [hfm] at h
      split_ifs at h with hr
      · simp only [Option.some.injEq] at h
        subst h
        subst hr
        exact ⟨by rw [hm.1, hk.2], hm.2⟩
      · have := ih _ _ _ hm.2 h
        refine ⟨?_, this.2⟩
        rw [this.1, hm.1, hk.2]
        simp

theorem lookup_distinct : ∀ (s : List α) (t : string_trie α) (n : node_t α),
    distinct t → lookup t s = some n → distinct n.nodes := by
  intro s
  induction s with
  | nil => intro t n _ h; simp [lookup_nil] at h
  | cons x rest ih =>
    intro t n hd h
    rw [lookup_cons] at h
    cases hfm : first_match x t with
    | none => simp [hfm] at h
    | some r =>
      obtain ⟨k, m⟩ := r
      have hk := first_match_some hfm
      have hm := ((distinct_iff t).1 hd).2 m (List.getElem?_mem hk.1)
      simp only [hfm] at h
      split_ifs at h with hr
      · simp only [Option.some.injEq] at h
        subst h
        exact hm
      · exact ih _ _ hm h

/-- The node at the end of a walk is the node that `find` points to. -/
theorem find_of_lookup (t : string_trie α) (s : List α) (n : node_t α)
    (h : lookup t s = some n) : ∃ p, find t s 0 = some p ∧ node_at t p = some n := by
  rw [lookup] at h
  cases hw : walk t s with
  | none => simp [hw] at h
  | some r =>
    obtain ⟨p, m⟩ := r
    simp only [hw, Option.map_some', Option.some.injEq] at h
    subst h
    exact ⟨p, by rw [find_zero_eq, hw]; rfl, walk_node_at s t p m hw⟩

theorem lookup_of_find (t : string_trie α) (s : List α) (p : List Nat)
    (h : find t s 0 = some p) : ∃ n, lookup t s = some n ∧ node_at t p = some n := by
  rw [find_zero_eq] at h
  cases hw : walk t s with
  | none => simp [hw] at h
  | some r =>
    obtain ⟨q, m⟩ := r
    simp only [hw, Option.map_some', Option.some.injEq] at h
    subst h
    exact ⟨m, by rw [lookup, hw]; rfl, walk_node_at s t q m hw⟩

theorem find_none_iff (t : string_trie α) (s : List α) :
    find t s 0 = none ↔ lookup t s = none := by
  rw [find_zero_eq, lookup]
  cases walk t s <;> simp

end string_trie

namespace string_trie

variable {α : Type} [DecidableEq α]

/-! ## The traversal of `add_word_nodes` -/

omit [DecidableEq α] in
theorem node_add_word_nodes_eq (n : node_t α) (out : List (List α)) :
    n.add_word_nodes out = add_word_nodes n.nodes out := by
  cases n; rfl

mutual
theorem node_add_word_nodes_append {α : Type} : ∀ (n : node_t α) (out : List (List α)),
    n.add_word_nodes out = out ++ n.add_word_nodes []
  | .mk ns _ _ _, out => by
    simp only [node_t.add_word_nodes]
    exact add_word_nodes_append ns out
theorem add_word_nodes_append {α : Type} : ∀ (t : string_trie α) (out : List (List α)),
    add_word_nodes t out = out ++ add_word_nodes t []
  | [], out => by simp [add_word_nodes]
  | n :: ns, out => by
    simp only [add_word_nodes]
    rw [add_word_nodes_append ns (n.add_word_nodes _),
      add_word_nodes_append ns (n.add_word_nodes (if n.word = true then [] ++ [n.value] else [])),
      node_add_word_nodes_append n (if n.word = true then out ++ [n.value] else out),
      node_add_word_nodes_append n (if n.word = true then [] ++ [n.value] else [])]
    split_ifs <;> simp
end

omit [DecidableEq α] in
theorem add_word_nodes_cons (n : node_t α) (ns : string_trie α) :
    add_word_nodes (n :: ns) [] =
      (if n.word then [n.value] else []) ++ add_word_nodes n.nodes [] ++
        add_word_nodes ns [] := by
  rw [add_word_nodes, add_word_nodes_append ns, node_add_word_nodes_eq,
    add_word_nodes_append n.nodes]
  split_ifs <;> simp

theorem is_word_cons (n : node_t α) (ns : string_trie α) (x : α) (rest : List α) :
    is_word (n :: ns) (x :: rest) =
      if n.c = x then (if rest = [] then n.word else is_word n.nodes rest)
      else is_word ns (x :: rest) := by
  rw [is_word, lookup_cons, first_match]
  by_cases h : n.c = x
  · simp only [if_pos h]
    split_ifs
    · rfl
    · rfl
  · simp only [if_neg h]
    rw [is_word, lookup_cons]
    cases first_match x ns with
    | none => rfl
    | some r => rfl

theorem is_word_mem (t : string_trie α) (x : α) (rest : List α)
    (h : is_word t (x :: rest) = true) : ∃ m ∈ t, m.c = x := by
  rw [is_word, lookup_cons] at h
  cases hfm : first_match x t with
  | none => simp [hfm] at h
  | some r =>
    obtain ⟨k, m⟩ := r
    have hk := first_match_some hfm
    exact ⟨m, List.getElem?_mem hk.1, hk.2⟩

end string_trie

namespace string_trie

variable {α : Type} [DecidableEq α]

mutual
theorem node_add_word_nodes_spec {α : Type} [DecidableEq α] : ∀ (n : node_t α),
    distinct n.nodes → cached n.nodes n.value →
    (∀ w, w ∈ add_word_nodes n.nodes [] ↔
      ∃ s, w = n.value ++ s ∧ is_word n.nodes s = true) ∧
    (add_word_nodes n.nodes []).Nodup
  | .mk ns v _ _, hd, hc => add_word_nodes_spec ns v hd hc
theorem add_word_nodes_spec {α : Type} [DecidableEq α] : ∀ (t : string_trie α)
    (pre : List α), distinct t → cached t pre →
    (∀ w, w ∈ add_word_nodes t [] ↔ ∃ s, w = pre ++ s ∧ is_word t s = true) ∧
    (add_word_nodes t []).Nodup
  | [], pre, _, _ => by
    constructor
    · intro w
      simp [add_word_nodes, is_word_empty]
    · simp [add_word_nodes]
  | n :: ns, pre, hd, hc => by
    have hd' := (distinct_iff _).1 hd
    have hc' := (cached_iff _ _).1 hc
    have hdn : distinct n.nodes := hd'.2 n (by simp)
    have hdns : distinct ns := by
      rw [distinct] at hd; exact hd.2
    have hcn := hc' n (by simp)
    have hcns : cached ns pre := by
      rw [cached] at hc; exact hc.2
    have hne : ∀ m ∈ ns, m.c ≠ n.c := by
      rw [distinct] at hd; exact hd.1.2
    have hn := node_add_word_nodes_spec n hdn hcn.2
    have hns := add_word_nodes_spec ns pre hdns hcns
    have hv : n.value = pre ++ [n.c] := hcn.1
    have hA : ∀ w ∈ (if n.word then [n.value] else []), w = pre ++ [n.c] ∧ n.word = true := by
      intro w hw
      split_ifs at hw with h1
      · simp only [List.mem_singleton] at hw
        exact ⟨hw.trans hv, h1⟩
      · simp at hw
    have hB : ∀ w ∈ add_word_nodes n.nodes [], ∃ s, s ≠ [] ∧ w = pre ++ n.c :: s ∧
        is_word n.nodes s = true := by
      intro w hw
      obtain ⟨s, rfl, hs⟩ := (hn.1 w).1 hw
      refine ⟨s, ?_, by simp [hv], hs⟩
      rintro rfl
      simp [is_word_nil] at hs
    have hC : ∀ w ∈ add_word_nodes ns [], ∃ x rest, x ≠ n.c ∧ w = pre ++ x :: rest ∧
        is_word ns (x :: rest) = true := by
      intro w hw
      obtain ⟨s, rfl, hs⟩ := (hns.1 w).1 hw
      cases s with
      | nil => simp [is_word_nil] at hs
      | cons x rest =>
        obtain ⟨m, hm, hmx⟩ := is_word_mem ns x rest hs
        exact ⟨x, rest, fun h => hne m hm (hmx.trans h), rfl, hs⟩
    rw [add_word_nodes_cons]
    constructor
    · intro w
      simp only [List.mem_append]
      constructor
      · rintro ((h | h) | h)
        · obtain ⟨rfl, hw⟩ := hA w h
          exact ⟨[n.c], rfl, by simp [is_word_cons, hw]⟩
        · obtain ⟨s, hs, rfl, hw⟩ := hB w h
          exact ⟨n.c :: s, rfl, by simp [is_word_cons, hs, hw]⟩
        · obtain ⟨x, rest, hx, rfl, hw⟩ := hC w h
          exact ⟨x :: rest, rfl, by rw [is_word_cons, if_neg (Ne.symm hx)]; exact hw⟩
      · rintro ⟨s, rfl, hs⟩
        cases s with
        | nil => simp [is_word_nil] at hs
        | cons x rest =>
          rw [is_word_cons] at hs
          split_ifs at hs with h1 h2
          · left; left
            simp [hs, hv, h1, h2]
          · left; right
            exact (hn.1 _).2 ⟨rest, by simp [hv, h1], hs⟩
          · right
            exact (hns.1 _).2 ⟨x :: rest, rfl, hs⟩
    · rw [List.nodup_append, List.nodup_append]
      refine ⟨⟨?_, hn.2, ?_⟩, hns.2, ?_⟩
      · split_ifs <;> simp
      · intro w h1 h2
        obtain ⟨rfl, _⟩ := hA w h1
        obtain ⟨s, hs, e, _⟩ := hB _ h2
        have := List.append_cancel_left e
        simp only [List.cons.injEq, true_and] at this
        exact hs this.symm
      · intro w h1 h2
        obtain ⟨x, rest, hx, rfl, _⟩ := hC w h2
        rw [List.mem_append] at h1
        rcases h1 with h1 | h1
        · have e := List.append_cancel_left (hA _ h1).1
          simp only [List.cons.injEq] at e
          exact hx e.1
        · obtain ⟨s, _, e, _⟩ := hB _ h1
          have e := List.append_cancel_left e
          simp only [List.cons.injEq] at e
          exact hx e.1
end

end string_trie

namespace string_trie

variable {α : Type} [DecidableEq α]

/-! ## `words` in terms of the walk -/

theorem lookup_append : ∀ (p : List α) (t : string_trie α) (n : node_t α) (s : List α),
    lookup t p = some n → s ≠ [] → lookup t (p ++ s) = lookup n.nodes s := by
  intro p
  induction p with
  | nil => intro t n s h; simp [lookup_nil] at h
  | cons x rest ih =>
    intro t n s h hs
    rw [lookup_cons] at h
    rw [List.cons_append, lookup_cons]
    cases hfm : first_match x t with
    | none => simp [hfm] at h
    | some r =>
      obtain ⟨k, m⟩ := r
      simp only [hfm] at h ⊢
      by_cases hr : rest = []
      · subst hr
        simp only [if_true, Option.some.injEq] at h
        subst h
        simp [hs]
      · simp only [if_neg hr] at h
        have : ¬ rest ++ s = [] := by simp [hr]
        simp only [if_neg this]
        exact ih _ _ _ h hs

theorem lookup_append_none : ∀ (p : List α) (t : string_trie α) (s : List α),
    p ≠ [] → lookup t p = none → lookup t (p ++ s) = none := by
  intro p
  induction p with
  | nil => intro t s h; exact absurd rfl h
  | cons x rest ih =>
    intro t s _ h
    rw [lookup_cons] at h
    rw [List.cons_append, lookup_cons]
    cases hfm : first_match x t with
    | none => rfl
    | some r =>
      obtain ⟨k, m⟩ := r
      simp only [hfm] at h ⊢
      by_cases hr : rest = []
      · simp [hr] at h
      · simp only [if_neg hr] at h
        have : ¬ rest ++ s = [] := by simp [hr]
        simp only [if_neg this]
        exact ih _ _ hr h

theorem words_eq (t : string_trie α) (out : List (List α)) (p : List α) :
    words t out p =
      match lookup t p with
      | none => out
      | some n => out ++ ((if n.word then [n.value] else []) ++ add_word_nodes n.nodes []) := by
  rw [words]
  cases hf : find t p 0 with
  | none =>
    rw [(find_none_iff t p).1 hf]
  | some q =>
    obtain ⟨n, h1, h2⟩ := lookup_of_find t p q hf
    simp only [h1, h2]
    rw [node_add_word_nodes_append, node_add_word_nodes_eq]
    split_ifs <;> simp

end string_trie

namespace string_trie

variable {α : Type} [DecidableEq α]

/-! ## A second `add`, and what `add` returns -/

theorem first_match_grow_some {t : string_trie α} {x : α} {k : Nat} {n : node_t α}
    (pre rest : List α) (hfm : first_match x t = some (k, n)) :
    grow t pre (x :: rest) = t.set k (touch pre [x] rest n) ∧
    first_match x (grow t pre (x :: rest)) = some (k, touch pre [x] rest n) := by
  have e : grow t pre (x :: rest) = t.set k (touch pre [x] rest n) := by
    rw [grow_cons, hfm]
  refine ⟨e, ?_⟩
  rw [e, first_match_set (first_match_some hfm).1 (touch_c _ _ _ _), hfm]
  simp

theorem first_match_grow_none {t : string_trie α} {x : α}
    (pre rest : List α) (hfm : first_match x t = none) :
    grow t pre (x :: rest) = t ++ [touch pre [x] rest (fresh (pre ++ [x]) x)] ∧
    first_match x (grow t pre (x :: rest)) =
      some (t.length, touch pre [x] rest (fresh (pre ++ [x]) x)) := by
  have e : grow t pre (x :: rest) = t ++ [touch pre [x] rest (fresh (pre ++ [x]) x)] := by
    rw [grow_cons, hfm]
  refine ⟨e, ?_⟩
  rw [e, first_match_append_none hfm, if_pos]
  simp [touch, fresh, node_t.c]

theorem touch_nodes_nil (pre s : List α) (old : node_t α) :
    (touch pre s [] old).nodes = old.nodes := by
  simp [touch, node_t.nodes]

theorem touch_nodes_cons (pre s : List α) (y : α) (r : List α) (old : node_t α) :
    (touch pre s (y :: r) old).nodes = grow old.nodes (pre ++ s) (y :: r) := by
  simp [touch, node_t.nodes]

omit [DecidableEq α] in
theorem node_ext {a b : node_t α} (h1 : a.nodes = b.nodes) (h2 : a.value = b.value)
    (h3 : a.c = b.c) (h4 : a.word = b.word) : a = b := by
  cases a; cases b
  simp only [node_t.nodes, node_t.value, node_t.c, node_t.word] at h1 h2 h3 h4
  subst h1 h2 h3 h4
  rfl

/-- Adding the same rest of a word below the same prefix a second time changes nothing. -/
theorem grow_idem : ∀ (suf : List α) (t : string_trie α) (pre : List α),
    grow (grow t pre suf) pre suf = grow t pre suf := by
  intro suf
  induction suf with
  | nil => intro t pre; rfl
  | cons x rest ih =>
    intro t pre
    have ht : ∀ old : node_t α,
        touch pre [x] rest (touch pre [x] rest old) = touch pre [x] rest old := by
      intro old
      apply node_ext
      · cases rest with
        | nil => simp [touch_nodes_nil]
        | cons y r => rw [touch_nodes_cons, touch_nodes_cons, ih]
      · rfl
      · rfl
      · simp [touch_word]
    cases hfm : first_match x t with
    | none =>
      obtain ⟨e1, e2⟩ := first_match_grow_none pre rest hfm
      rw [(first_match_grow_some pre rest e2).1, ht, e1]
      simp
    | some r =>
      obtain ⟨k, n⟩ := r
      obtain ⟨e1, e2⟩ := first_match_grow_some pre rest hfm
      rw [(first_match_grow_some pre rest e2).1, ht, e1]
      simp

/-- The second `add` of a word returns the node that the first one returned. -/
theorem grow_ptr_idem : ∀ (suf : List α) (t : string_trie α) (pre : List α),
    grow_ptr (grow t pre suf) suf = grow_ptr t suf := by
  intro suf
  induction suf with
  | nil => intro t pre; rfl
  | cons x rest ih =>
    intro t pre
    have hn : ∀ old : node_t α, rest ≠ [] →
        grow_ptr (touch pre [x] rest old).nodes rest = grow_ptr old.nodes rest := by
      intro old hr
      cases rest with
      | nil => exact absurd rfl hr
      | cons y r => rw [touch_nodes_cons, ih]
    cases hfm : first_match x t with
    | none =>
      obtain ⟨_, e2⟩ := first_match_grow_none pre rest hfm
      rw [grow_ptr, e2, grow_ptr, hfm]
      simp only
      by_cases hr : rest = []
      · simp [hr]
      · simp only [if_neg hr]
        rw [hn _ hr]
        simp [fresh, node_t.nodes]
    | some r =>
      obtain ⟨k, n⟩ := r
      obtain ⟨_, e2⟩ := first_match_grow_some pre rest hfm
      rw [grow_ptr, e2, grow_ptr, hfm]
      simp only
      by_cases hr : rest = []
      · simp [hr]
      · simp only [if_neg hr]
        rw [hn _ hr]

/-- The walk along the added word takes the path that `add` returned. -/
theorem walk_grow : ∀ (suf : List α), suf ≠ [] → ∀ (t : string_trie α) (pre : List α),
    (walk (grow t pre suf) suf).map Prod.fst = some (grow_ptr t suf) := by
  intro suf
  induction suf with
  | nil => intro h; exact absurd rfl h
  | cons x rest ih =>
    intro _ t pre
    have hn : ∀ old : node_t α, rest ≠ [] →
        (walk (touch pre [x] rest old).nodes rest).map Prod.fst =
          some (grow_ptr old.nodes rest) := by
      intro old hr
      cases rest with
      | nil => exact absurd rfl hr
      | cons y r => rw [touch_nodes_cons]; exact ih (by simp) _ _
    cases hfm : first_match x t with
    | none =>
      obtain ⟨_, e2⟩ := first_match_grow_none pre rest hfm
      rw [walk, e2, grow_ptr, hfm]
      simp only
      by_cases hr : rest = []
      · simp [hr]
      · simp only [if_neg hr, Option.map_map]
        have := hn (fresh (pre ++ [x]) x) hr
        cases hw : walk (touch pre [x] rest (fresh (pre ++ [x]) x)).nodes rest with
        | none => simp [hw] at this
        | some q =>
          simp only [hw, Option.map_some', Option.some.injEq] at this
          simp [this, fresh, node_t.nodes]
    | some r =>
      obtain ⟨k, n⟩ := r
      obtain ⟨_, e2⟩ := first_match_grow_some pre rest hfm
      rw [walk, e2, grow_ptr, hfm]
      simp only
      by_cases hr : rest = []
      · simp [hr]
      · simp only [if_neg hr, Option.map_map]
        have := hn n hr
        cases hw : walk (touch pre [x] rest n).nodes rest with
        | none => simp [hw] at this
        | some q =>
          simp only [hw, Option.map_some', Option.some.injEq] at this
          simp [this]

theorem lookup_c : ∀ (s : List α) (hs : s ≠ []) (t : string_trie α) (n : node_t α),
    lookup t s = some n → n.c = s.getLast hs := by
  intro s
  induction s with
  | nil => intro hs; exact absurd rfl hs
  | cons x rest ih =>
    intro hs t n h
    rw [lookup_cons] at h
    cases hfm : first_match x t with
    | none => simp [hfm] at h
    | some r =>
      obtain ⟨k, m⟩ := r
      simp only [hfm] at h
      by_cases hr : rest = []
      · subst hr
        simp only [if_true, Option.some.injEq] at h
        subst h
        simpa using (first_match_some hfm).2
      · simp only [if_neg hr] at h
        rw [List.getLast_cons hr]
        exact ih hr _ _ h

end string_trie

namespace string_trie

variable {α : Type} [DecidableEq α]

/-! ## What `add` leaves in place -/

theorem length_grow (t : string_trie α) (pre suf : List α) :
    t.length ≤ (grow t pre suf).length := by
  cases suf with
  | nil => exact Nat.le_refl _
  | cons x rest =>
    rw [grow_cons]
    cases first_match x t with
    | none => simp
    | some r => simp

/-- Every child is, after `add`, the same child or the touched child, at the same index. -/
theorem getElem?_grow (t : string_trie α) (pre : List α) (x : α) (rest : List α) (j : Nat)
    (m : node_t α) (h : t[j]? = some m) :
    (grow t pre (x :: rest))[j]? = some m ∨
      (grow t pre (x :: rest))[j]? = some (touch pre [x] rest m) := by
  have hj : j < t.length := (List.getElem?_eq_some_iff.1 h).1
  rw [grow_cons]
  cases hfm : first_match x t with
  | none =>
    left
    simp only
    rw [List.getElem?_append_left hj, h]
  | some r =>
    obtain ⟨k, n⟩ := r
    have hk := (first_match_some hfm).1
    simp only
    rw [List.getElem?_set]
    by_cases hkj : k = j
    · subst hkj
      right
      rw [hk] at h
      simp only [Option.some.injEq] at h
      subst h
      simp [hj]
    · left
      simp [hkj, h]

theorem node_at_grow : ∀ (p : List Nat) (suf : List α) (t : string_trie α) (pre : List α)
    (n : node_t α), node_at t p = some n →
    ∃ n', node_at (grow t pre suf) p = some n' ∧ n'.c = n.c ∧ n'.value = n.value ∧
      (n.word = true → n'.word = true) ∧ n.nodes.length ≤ n'.nodes.length := by
  intro p
  induction p with
  | nil => intro suf t pre n h; simp [node_at] at h
  | cons k p ih =>
    intro suf t pre n h
    cases suf with
    | nil => exact ⟨n, h, rfl, rfl, id, Nat.le_refl _⟩
    | cons x rest =>
      rw [node_at] at h
      cases hk : t[k]? with
      | none => simp [hk] at h
      | some m =>
        simp only [hk] at h
        rcases getElem?_grow t pre x rest k m hk with hg | hg
        · refine ⟨n, ?_, rfl, rfl, id, Nat.le_refl _⟩
          rw [node_at]
          simp only [hg]
          exact h
        · by_cases hp : p = []
          · subst hp
            simp only [if_true, Option.some.injEq] at h
            subst h
            refine ⟨touch pre [x] rest m, ?_, rfl, rfl, ?_, ?_⟩
            · rw [node_at]
              simp [hg]
            · intro hw
              simp [touch_word, hw]
            · cases rest with
              | nil => rw [touch_nodes_nil]
              | cons y r => rw [touch_nodes_cons]; exact length_grow _ _ _
          · simp only [if_neg hp] at h
            cases rest with
            | nil =>
              refine ⟨n, ?_, rfl, rfl, id, Nat.le_refl _⟩
              rw [node_at]
              simp only [hg, if_neg hp, touch_nodes_nil]
              exact h
            | cons y r =>
              obtain ⟨n', h1, h2⟩ := ih (y :: r) m.nodes (pre ++ [x]) n h
              refine ⟨n', ?_, h2⟩
              rw [node_at]
              simp only [hg, if_neg hp, touch_nodes_cons]
              exact h1

end string_trie

namespace string_trie

variable {α : Type} [DecidableEq α]

/-! ## The order of emission -/

omit [DecidableEq α] in
theorem node_pre_order_eq (n : node_t α) :
    n.pre_order = (if n.word then [n.value] else []) ++ pre_order n.nodes := by
  cases n; rfl

mutual
theorem node_add_word_nodes_pre_order {α : Type} : ∀ (n : node_t α),
    n.add_word_nodes [] = pre_order n.nodes
  | .mk ns _ _ _ => by
    simp only [node_t.add_word_nodes, node_t.nodes]
    exact add_word_nodes_pre_order ns
theorem add_word_nodes_pre_order {α : Type} : ∀ (t : string_trie α),
    add_word_nodes t [] = pre_order t
  | [] => by simp [add_word_nodes, pre_order]
  | n :: ns => by
    rw [add_word_nodes_cons, pre_order, node_pre_order_eq, add_word_nodes_pre_order ns,
      ← node_add_word_nodes_eq, node_add_word_nodes_pre_order n]
end

omit [DecidableEq α] in
theorem node_at_cons_zero (n : node_t α) (ns : string_trie α) (q : List Nat) (hq : q ≠ []) :
    node_at (n :: ns) (0 :: q) = node_at n.nodes q := by
  rw [node_at]
  simp [hq]

omit [DecidableEq α] in
theorem node_at_cons_succ (n : node_t α) (ns : string_trie α) (k : Nat) (q : List Nat) :
    node_at (n :: ns) ((k + 1) :: q) = node_at ns (k :: q) := by
  rw [node_at, node_at]
  simp

mutual
theorem node_mem_add_word_nodes_at {α : Type} : ∀ (n : node_t α) (w : List α),
    w ∈ add_word_nodes n.nodes [] →
    ∃ q m, node_at n.nodes q = some m ∧ m.word = true ∧ m.value = w
  | .mk ns _ _ _, w, h => mem_add_word_nodes_at ns w h
theorem mem_add_word_nodes_at {α : Type} : ∀ (t : string_trie α) (w : List α),
    w ∈ add_word_nodes t [] → ∃ q m, node_at t q = some m ∧ m.word = true ∧ m.value = w
  | [], w, h => by simp [add_word_nodes] at h
  | n :: ns, w, h => by
    rw [add_word_nodes_cons, List.mem_append, List.mem_append] at h
    rcases h with (h | h) | h
    · split_ifs at h with hw
      · simp only [List.mem_singleton] at h
        exact ⟨[0], n, by simp [node_at], hw, h.symm⟩
      · simp at h
    · obtain ⟨q, m, h1, h2⟩ := node_mem_add_word_nodes_at n w h
      have hq : q ≠ [] := by
        rintro rfl
        simp [node_at] at h1
      exact ⟨0 :: q, m, by rw [node_at_cons_zero _ _ _ hq]; exact h1, h2⟩
    · obtain ⟨q, m, h1, h2⟩ := mem_add_word_nodes_at ns w h
      cases q with
      | nil => simp [node_at] at h1
      | cons k r => exact ⟨(k + 1) :: r, m, by rw [node_at_cons_succ]; exact h1, h2⟩
end

omit [DecidableEq α] in
theorem cached_at_nodes : ∀ (p : List Nat) (t : string_trie α) (pre : List α)
    (n : node_t α), cached t pre → node_at t p = some n → cached n.nodes n.value := by
  intro p
  induction p with
  | nil => intro t pre n _ h; simp [node_at] at h
  | cons k p ih =>
    intro t pre n hc h
    rw [node_at] at h
    cases hk : t[k]? with
    | none => simp [hk] at h
    | some m =>
      have hm := ((cached_iff t pre).1 hc) m (List.getElem?_mem hk)
      simp only [hk] at h
      split_ifs at h with hp
      · simp only [Option.some.injEq] at h
        subst h
        exact hm.2
      · exact ih _ _ _ hm.2 h

end string_trie

namespace string_trie

variable {α : Type} [DecidableEq α]

/-! ## Leaves are words -/

omit [DecidableEq α] in
theorem node_marked_iff (n : node_t α) :
    n.marked ↔ (n.nodes = [] → n.word = true) ∧ marked n.nodes := by
  cases n; simp [node_t.marked, node_t.nodes, node_t.word]

omit [DecidableEq α] in
theorem marked_iff : ∀ (t : string_trie α), marked t ↔ ∀ n ∈ t, n.marked := by
  intro t
  induction t with
  | nil => simp [marked]
  | cons a as ih => rw [marked, ih]; simp

omit [DecidableEq α] in
theorem marked_nil : marked ([] : string_trie α) := by simp [marked]

theorem grow_ne_nil (t : string_trie α) (pre : List α) (x : α) (rest : List α) :
    grow t pre (x :: rest) ≠ [] := by
  rw [grow_cons]
  cases hfm : first_match x t with
  | none => simp
  | some r =>
    obtain ⟨k, n⟩ := r
    have := first_match_lt hfm
    simp only [ne_eq, List.set_eq_nil_iff]
    rintro rfl
    simp at this

theorem marked_grow : ∀ (suf : List α) (t : string_trie α) (pre : List α),
    marked t → marked (grow t pre suf) := by
  intro suf
  induction suf with
  | nil => intro t pre h; exact h
  | cons x rest ih =>
    intro t pre h
    rw [marked_iff] at h
    have ht : ∀ old : node_t α, marked old.nodes → (touch pre [x] rest old).marked := by
      intro old ho
      rw [node_marked_iff]
      cases rest with
      | nil => exact ⟨fun _ => by simp [touch_word], by rw [touch_nodes_nil]; exact ho⟩
      | cons y r =>
        rw [touch_nodes_cons]
        exact ⟨fun hn => absurd hn (grow_ne_nil _ _ _ _), ih _ _ ho⟩
    rw [grow_cons]
    cases hfm : first_match x t with
    | none =>
      simp only
      rw [marked_iff]
      intro n hn
      rw [List.mem_append] at hn
      rcases hn with hn | hn
      · exact h n hn
      · simp only [List.mem_singleton] at hn
        subst hn
        exact ht _ (by simp [fresh, node_t.nodes, marked_nil])
    | some r =>
      obtain ⟨k, n⟩ := r
      have hmem : n ∈ t := List.getElem?_mem (first_match_some hfm).1
      simp only
      rw [marked_iff]
      intro m hm
      rcases List.mem_or_eq_of_mem_set hm with hm | hm
      · exact h m hm
      · subst hm
        exact ht _ ((node_marked_iff n).1 (h n hmem)).2

theorem marked_foldl : ∀ (calls : List (List α × Nat)) (t : string_trie α),
    marked t →
    marked (calls.foldl (fun acc c => grow acc (c.1.take c.2) (c.1.drop c.2)) t) := by
  intro calls
  induction calls with
  | nil => intro t h; exact h
  | cons c calls ih => intro t h; exact ih _ (marked_grow _ _ _ h)

omit [DecidableEq α] in
theorem marked_at : ∀ (p : List Nat) (t : string_trie α) (n : node_t α),
    marked t → node_at t p = some n → n.marked := by
  intro p
  induction p with
  | nil => intro t n _ h; simp [node_at] at h
  | cons k p ih =>
    intro t n hm h
    rw [node_at] at h
    cases hk : t[k]? with
    | none => simp [hk] at h
    | some m =>
      have hmm := (marked_iff t).1 hm m (List.getElem?_mem hk)
      simp only [hk] at h
      split_ifs at h with hp
      · simp only [Option.some.injEq] at h
        subst h
        exact hmm
      · exact ih _ _ ((node_marked_iff m).1 hmm).2 h

mutual
theorem node_pre_order_ne_nil {α : Type} : ∀ (n : node_t α), n.marked → n.pre_order ≠ []
  | .mk ns v _ w, h => by
    rw [node_t.marked] at h
    rw [node_t.pre_order]
    cases ns with
    | nil =>
      rw [h.1 rfl]
      simp
    | cons m ms =>
      have := pre_order_ne_nil (m :: ms) (by simp) h.2
      simp [this]
theorem pre_order_ne_nil {α : Type} : ∀ (t : string_trie α), t ≠ [] → marked t →
    pre_order t ≠ []
  | [], h, _ => absurd rfl h
  | n :: ns, _, h => by
    rw [marked] at h
    rw [pre_order]
    have := node_pre_order_ne_nil n h.1
    simp [this]
end

end string_trie

namespace string_trie

variable {α : Type} [DecidableEq α]

theorem words_pre_order (t : string_trie α) (out : List (List α)) (p : List α)
    (q : List Nat) (n : node_t α) (hf : find t p 0 = some q) (hn : node_at t q = some n) :
    words t out p = out ++ n.pre_order := by
  obtain ⟨m, h1, h2⟩ := lookup_of_find t p q hf
  rw [hn] at h2
  simp only [Option.some.injEq] at h2
  subst h2
  rw [words_eq, h1, node_pre_order_eq]
  simp only
  rw [add_word_nodes_pre_order]

end string_trie

namespace string_trie

variable {α : Type} [DecidableEq α]

/-! ## Paths of child indices and walks along symbols -/

theorem first_match_of_nodup : ∀ (t : string_trie α) (k : Nat) (n : node_t α),
    (t.map node_t.c).Nodup → t[k]? = some n → first_match n.c t = some (k, n) := by
  intro t
  induction t with
  | nil => intro k n _ h; simp at h
  | cons a as ih =>
    intro k n hd h
    rw [List.map_cons, List.nodup_cons] at hd
    cases k with
    | zero =>
      simp only [List.getElem?_cons_zero, Option.some.injEq] at h
      subst h
      simp [first_match]
    | succ k =>
      simp only [List.getElem?_cons_succ] at h
      have hne : a.c ≠ n.c := by
        intro e
        apply hd.1
        rw [e]
        exact List.mem_map.2 ⟨n, List.getElem?_mem h, rfl⟩
      rw [first_match, if_neg hne, ih k n hd.2 h]
      rfl

omit [DecidableEq α] in
theorem path_symbols_length : ∀ (p : List Nat) (t : string_trie α) (n : node_t α),
    node_at t p = some n → (path_symbols t p).length = p.length := by
  intro p
  induction p with
  | nil => intro t n h; simp [node_at] at h
  | cons k p ih =>
    intro t n h
    rw [node_at] at h
    cases hk : t[k]? with
    | none => simp [hk] at h
    | some m =>
      simp only [hk] at h
      rw [path_symbols]
      simp only [hk, List.length_cons, Nat.add_right_cancel_iff]
      split_ifs at h with hp
      · subst hp; simp [path_symbols]
      · exact ih _ _ h

/-- When siblings have distinct symbols, the walk along the symbols of a child-index
path ends in the node at that path. -/
theorem lookup_path_symbols : ∀ (p : List Nat) (t : string_trie α) (n : node_t α),
    distinct t → node_at t p = some n → lookup t (path_symbols t p) = some n := by
  intro p
  induction p with
  | nil => intro t n _ h; simp [node_at] at h
  | cons k p ih =>
    intro t n hd h
    have hd' := (distinct_iff t).1 hd
    rw [node_at] at h
    cases hk : t[k]? with
    | none => simp [hk] at h
    | some m =>
      simp only [hk] at h
      rw [path_symbols]
      simp only [hk]
      rw [lookup_cons, first_match_of_nodup t k m hd'.1 hk]
      simp only
      split_ifs at h with hp
      · simp only [Option.some.injEq] at h
        subst h
        subst hp
        simp [path_symbols]
      · have hlen := path_symbols_length p _ n h
        have hne : path_symbols m.nodes p ≠ [] := by
          intro e
          rw [e] at hlen
          cases p with
          | nil => exact hp rfl
          | cons _ _ => simp at hlen
        rw [if_neg hne]
        exact ih _ _ (hd'.2 m (List.getElem?_mem hk)) h

theorem mem_map_c_iff (t : string_trie α) (x : α) :
    x ∈ t.map node_t.c ↔ first_match x t ≠ none := by
  rw [Ne, first_match_none]
  simp only [List.mem_map, not_forall, not_not]
  constructor
  · rintro ⟨n, hn, e⟩; exact ⟨n, hn, e⟩
  · rintro ⟨n, hn, e⟩; exact ⟨n, hn, e⟩

theorem map_c_grow (t : string_trie α) (pre : List α) (x : α) (rest : List α) :
    (grow t pre (x :: rest)).map node_t.c =
      if x ∈ t.map node_t.c then t.map node_t.c else t.map node_t.c ++ [x] := by
  rw [grow_cons]
  cases hfm : first_match x t with
  | none =>
    have hx : x ∉ t.map node_t.c := by rw [mem_map_c_iff, hfm]; simp
    rw [if_neg hx]
    simp only [List.map_append, List.map_cons, List.map_nil, touch_c]
    rfl
  | some r =>
    obtain ⟨k, n⟩ := r
    have hk := first_match_some hfm
    have hx : x ∈ t.map node_t.c := by rw [mem_map_c_iff, hfm]; simp
    rw [if_pos hx]
    simp only
    rw [List.map_set, touch_c]
    apply List.ext_getElem?
    intro i
    rw [List.getElem?_set]
    split_ifs with h1 h2
    · subst h1; simp [hk.1]
    · subst h1
      simp only [List.length_map] at h2
      exact absurd (first_match_lt hfm) h2
    · rfl

end string_trie

namespace string_trie

variable {α : Type} [DecidableEq α]

/-! ## The order of siblings -/

theorem following_nil (q : List α) : following q [] = none := by
  rw [following]
  split_ifs <;> simp

theorem following_nil_cons (x : α) (rest : List α) : following [] (x :: rest) = some x := by
  simp [following]

theorem following_append (q r : List α) : following q (q ++ r) = r.head? := by
  rw [following, if_pos (List.prefix_append q r), List.getElem?_append_right (Nat.le_refl _)]
  cases r <;> simp

theorem following_apart (q w : List α) (h : ¬ q <+: w) : following q w = none := by
  rw [following, if_neg h]

theorem children_symbols_empty (q : List α) :
    children_symbols ([] : string_trie α) q = [] := by
  rw [children_symbols]
  split_ifs
  · rfl
  · rw [lookup_empty]

theorem children_symbols_grow (t : string_trie α) (pre suf q : List α) :
    children_symbols (grow t pre suf) q =
      record (children_symbols t q) (following q suf) := by
  by_cases hq : q = []
  · subst hq
    cases suf with
    | nil => rw [following_nil]; rfl
    | cons x rest =>
      rw [following_nil_cons]
      simp only [children_symbols, if_true, record]
      exact map_c_grow t pre x rest
  · simp only [children_symbols, if_neg hq]
    by_cases hp : q <+: suf
    · obtain ⟨r, rfl⟩ := hp
      rw [lookup_grow_along q hq, following_append]
      cases r with
      | nil =>
        simp only [List.head?_nil, record, touch_nodes_nil]
        cases lookup t q with
        | none => simp [fresh, node_t.nodes]
        | some n => rfl
      | cons x r =>
        simp only [List.head?_cons, record, touch_nodes_cons]
        rw [map_c_grow]
        cases lookup t q with
        | none => simp [fresh, node_t.nodes]
        | some n => rfl
    · rw [lookup_grow_other suf t pre q (fun h => hp h.2), following_apart q suf hp]
      rfl

theorem children_symbols_grow_all : ∀ (ws : List (List α)) (t : string_trie α)
    (q : List α), children_symbols (grow_all t ws) q =
      ws.foldl (fun acc w => record acc (following q w)) (children_symbols t q) := by
  intro ws
  induction ws with
  | nil => intro t q; rfl
  | cons w ws ih =>
    intro t q
    have e : grow_all t (w :: ws) = grow_all (grow t [] w) ws := rfl
    rw [e, ih, children_symbols_grow]
    rfl

end string_trie

namespace string_trie

variable {α : Type} [DecidableEq α]

/-! ## A single `add` on the empty root -/

theorem has_path_grow_empty (pre suf s : List α) :
    has_path (grow ([] : string_trie α) pre suf) s = decide (s ≠ [] ∧ s <+: suf) := by
  rw [has_path_grow, has_path_empty, Bool.or_false]

theorem lookup_grow_empty_self (pre suf : List α) (hs : suf ≠ []) :
    lookup (grow ([] : string_trie α) pre suf) suf =
      some (.mk [] (pre ++ suf) (suf.getLast hs) true) := by
  have h := lookup_grow_along suf hs ([] : string_trie α) pre []
  rw [List.append_nil, lookup_empty] at h
  rw [h]
  simp [touch, fresh, node_t.nodes, node_t.value, node_t.c, node_t.word]

/-- In the trie that one `add` builds from the empty root, a child-index path spells the
beginning of the added rest of the word, and the `value` at its end is `pre` and that
beginning. -/
theorem node_at_grow_empty (pre suf : List α) (p : List Nat) (n : node_t α)
    (h : node_at (grow ([] : string_trie α) pre suf) p = some n) :
    path_symbols (grow ([] : string_trie α) pre suf) p = suf.take p.length ∧
    n.value = pre ++ suf.take p.length := by
  have hd : distinct (grow ([] : string_trie α) pre suf) := distinct_grow _ _ _ distinct_nil
  have hc : cached (grow ([] : string_trie α) pre suf) pre := cached_grow _ _ _ (cached_nil _)
  have h1 := lookup_path_symbols p _ n hd h
  have h2 := has_path_grow_empty pre suf (path_symbols (grow ([] : string_trie α) pre suf) p)
  rw [has_path, h1] at h2
  have h3 : path_symbols (grow ([] : string_trie α) pre suf) p <+: suf := by
    have := h2.symm
    simp only [Option.isSome_some, decide_eq_true_eq] at this
    exact this.2
  have h4 := List.prefix_iff_eq_take.1 h3
  rw [path_symbols_length p _ n h] at h4
  exact ⟨h4, by rw [cached_at p _ pre n hc h, h4]⟩

end string_trie

/-! # The claims -/

namespace string_trie

variable {α : Type} [DecidableEq α]

/-- C1. Round-trip membership: when non-empty words are inserted one after the other with
`add(word)` into the empty root, every call returns, and in the trie they leave `find(w)`
returns, for each inserted word `w`, a node whose `word` flag is set and whose `value` is
`w`. -/
theorem round_trip_membership (ws : List (List α)) (h : ∀ w ∈ ws, w ≠ []) :
    ∃ t, build ws = .ok t ∧
      ∀ w ∈ ws, ∃ p n, find t w 0 = some p ∧ node_at t p = some n ∧
        n.word = true ∧ n.value = w := by
  refine ⟨grow_all [] ws, build_eq ws h, ?_⟩
  intro w hw
  have h1 : is_word (grow_all [] ws) w = true := by
    rw [is_word_grow_all ws [] w h]; simp [hw]
  rw [is_word] at h1
  cases hl : lookup (grow_all [] ws) w with
  | none => simp [hl] at h1
  | some n =>
    simp only [hl] at h1
    obtain ⟨p, hp1, hp2⟩ := find_of_lookup _ _ _ hl
    have hc := lookup_cached w _ [] n (cached_grow_all ws [] (cached_nil [])) hl
    exact ⟨p, n, hp1, hp2, h1, by simpa using hc.1⟩

/-- Witness of C1: the words `ab`, `a`, `ab` inserted in that order. -/
theorem round_trip_membership_witness :
    (∀ w ∈ [['a', 'b'], ['a'], ['a', 'b']], w ≠ []) ∧
    ∃ t, build [['a', 'b'], ['a'], ['a', 'b']] = .ok t ∧
      ∀ w ∈ [['a', 'b'], ['a'], ['a', 'b']], ∃ p n, find t w 0 = some p ∧
        node_at t p = some n ∧ n.word = true ∧ n.value = w :=
  ⟨by decide, round_trip_membership _ (by decide)⟩

/-- C5. Distinct children: after any sequence of calls `add(word, index)` on the empty
root, each with `index < word.size()`, every call has returned, and neither the root nor
any node has two children with the same `c`. -/
theorem distinct_children (calls : List (List α × Nat))
    (h : ∀ c ∈ calls, c.2 < c.1.length) :
    ∃ t, add_all [] calls = .ok t ∧ (t.map node_t.c).Nodup ∧
      ∀ p n, node_at t p = some n → (n.nodes.map node_t.c).Nodup := by
  refine ⟨_, add_all_eq calls [] h, ?_⟩
  have hd := distinct_foldl calls [] distinct_nil
  refine ⟨((distinct_iff _).1 hd).1, ?_⟩
  intro p n hp
  exact ((distinct_iff _).1 (distinct_at p _ n hd hp)).1

/-- Witness of C5: `add("ab", 0)`, `add("cab", 1)`, `add("b", 0)`. -/
theorem distinct_children_witness :
    (∀ c ∈ [(['a', 'b'], 0), (['c', 'a', 'b'], 1), (['b'], 0)], c.2 < c.1.length) ∧
    ∃ t, add_all [] [(['a', 'b'], 0), (['c', 'a', 'b'], 1), (['b'], 0)] = .ok t ∧
      (t.map node_t.c).Nodup ∧
      ∀ p n, node_at t p = some n → (n.nodes.map node_t.c).Nodup :=
  ⟨by decide, distinct_children _ (by decide)⟩

/-- C6. Accumulated value: after any sequence of calls `add(word)` with non-empty words
on the empty root, the `value` of every node is the sequence of the symbols `c` on the
path from the root down to and including that node. -/
theorem value_is_path (ws : List (List α)) (h : ∀ w ∈ ws, w ≠ []) :
    ∃ t, build ws = .ok t ∧
      ∀ p n, node_at t p = some n → n.value = path_symbols t p := by
  refine ⟨grow_all [] ws, build_eq ws h, ?_⟩
  intro p n hp
  simpa using cached_at p _ [] n (cached_grow_all ws [] (cached_nil [])) hp

/-- Witness of C6: the words `ab`, `a`, `cd` inserted in that order. -/
theorem value_is_path_witness :
    (∀ w ∈ [['a', 'b'], ['a'], ['c', 'd']], w ≠ []) ∧
    ∃ t, build [['a', 'b'], ['a'], ['c', 'd']] = .ok t ∧
      ∀ p n, node_at t p = some n → n.value = path_symbols t p :=
  ⟨by decide, value_is_path _ (by decide)⟩

end string_trie

namespace string_trie

variable {α : Type} [DecidableEq α]

/-- C2. Prefix completeness: in the trie that a sequence of calls `add(word)` with
non-empty words builds from the empty root, `words(out, p)` with an empty `out` and a
non-empty `p` leaves in `out` the inserted words that start with `p`, each of them once
and nothing else. -/
theorem prefix_completeness (ws : List (List α)) (p : List α) (h : ∀ w ∈ ws, w ≠ [])
    (hp : p ≠ []) :
    ∃ t, build ws = .ok t ∧ (words t [] p).Nodup ∧
      ∀ w, w ∈ words t [] p ↔ (w ∈ ws ∧ p <+: w) := by
  refine ⟨grow_all [] ws, build_eq ws h, ?_⟩
  have hd : distinct (grow_all [] ws) := distinct_grow_all ws [] distinct_nil
  have hc : cached (grow_all [] ws) [] := cached_grow_all ws [] (cached_nil [])
  have hw : ∀ s, is_word (grow_all [] ws) s = true ↔ s ∈ ws := by
    intro s
    rw [is_word_grow_all ws [] s h, is_word_empty]
    simp
  rw [words_eq]
  cases hl : lookup (grow_all [] ws) p with
  | none =>
    simp only [List.nodup_nil, List.not_mem_nil, false_iff, not_and, true_and]
    rintro w hmem ⟨s, rfl⟩
    have := (hw (p ++ s)).2 hmem
    rw [is_word, lookup_append_none p _ s hp hl] at this
    simp at this
  | some n =>
    have hv := lookup_cached p _ [] n hc hl
    have hdn := lookup_distinct p _ n hd hl
    have hspec := node_add_word_nodes_spec n hdn hv.2
    have hval : n.value = p := by simpa using hv.1
    have hnw : n.word = is_word (grow_all [] ws) p := by rw [is_word, hl]
    simp only [List.nil_append]
    constructor
    · rw [List.nodup_append]
      refine ⟨by split_ifs <;> simp, hspec.2, ?_⟩
      intro w h1 h2
      split_ifs at h1
      · simp only [List.mem_singleton] at h1
        obtain ⟨s, e, hs⟩ := (hspec.1 w).1 h2
        rw [h1] at e
        have : s = [] := by simpa using e
        subst this
        simp [is_word_nil] at hs
      · simp at h1
    · intro w
      rw [List.mem_append, hspec.1 w]
      constructor
      · rintro (h1 | ⟨s, rfl, hs⟩)
        · split_ifs at h1 with hword
          · simp only [List.mem_singleton] at h1
            rw [h1, hval]
            exact ⟨(hw p).1 (hnw ▸ hword), List.prefix_refl p⟩
          · simp at h1
        · have hs0 : s ≠ [] := by
            rintro rfl
            simp [is_word_nil] at hs
          rw [hval]
          refine ⟨(hw _).1 ?_, List.prefix_append p s⟩
          rw [is_word, lookup_append p _ n s hl hs0]
          exact hs
      · rintro ⟨hmem, s, rfl⟩
        have h1 := (hw _).2 hmem
        by_cases hs0 : s = []
        · subst hs0
          left
          rw [List.append_nil] at h1 ⊢
          rw [← hnw] at h1
          simp [h1, hval]
        · right
          refine ⟨s, by rw [hval], ?_⟩
          rw [is_word, lookup_append p _ n s hl hs0] at h1
          exact h1

/-- Witness of C2: `cat`, `car`, `card`, `dog`, `car` inserted, and the prefix `ca`. -/
theorem prefix_completeness_witness :
    (∀ w ∈ ["cat".toList, "car".toList, "card".toList, "dog".toList, "car".toList], w ≠ []) ∧
    "ca".toList ≠ [] ∧
    ∃ t, build ["cat".toList, "car".toList, "card".toList, "dog".toList, "car".toList] = .ok t ∧
      (words t [] "ca".toList).Nodup ∧
      ∀ w, w ∈ words t [] "ca".toList ↔
        (w ∈ ["cat".toList, "car".toList, "card".toList, "dog".toList, "car".toList] ∧
          "ca".toList <+: w) :=
  ⟨by decide, by decide, prefix_completeness _ _ (by decide) (by decide)⟩

end string_trie

namespace string_trie

variable {α : Type} [DecidableEq α]

/-- C3, as the code has it. After `add("b")` and `add("a")` on the empty root,
`words(out, "")` with an empty `out` leaves `out` empty, because `find("")` is null; it is
`add_word_nodes(out)` on the root that yields all words, in the order `["b", "a"]`. -/
theorem empty_prefix_enumeration :
    ∃ t : string_trie Char, build ["b".toList, "a".toList] = .ok t ∧
      find t "".toList 0 = none ∧ words t [] "".toList = [] ∧
      add_word_nodes t [] = ["b".toList, "a".toList] :=
  ⟨_, rfl, rfl, rfl, rfl⟩

/-- C3 as stated fails: after `add("b")` and `add("a")` on the empty root, `words(out, "")`
with an empty `out` does not yield `["b", "a"]`. -/
theorem empty_prefix_enumeration_counterexample :
    ¬ ∃ t : string_trie Char, build ["b".toList, "a".toList] = .ok t ∧
      words t [] "".toList = ["b".toList, "a".toList] := by
  rintro ⟨t, h1, h2⟩
  have e : build ["b".toList, "a".toList] =
      .ok ([.mk [] ['b'] 'b' true, .mk [] ['a'] 'a' true] : string_trie Char) := rfl
  rw [e] at h1
  injection h1 with h1
  subst h1
  exact absurd h2 (by decide)

/-- C4. The concrete scenario: after `cat`, `car`, `card`, `dog` are inserted in that
order into the empty trie, `words(out, "ca")` yields `cat`, `car`, `card`, `find("ca")`
returns a node whose `word` flag is false, `find("car")` one whose flag is true,
`words(out, "do")` yields `dog`, and `words(out, "x")` yields nothing, `find("x")` being
null. -/
theorem concrete_scenario :
    ∃ t : string_trie Char,
      build ["cat".toList, "car".toList, "card".toList, "dog".toList] = .ok t ∧
      words t [] "ca".toList = ["cat".toList, "car".toList, "card".toList] ∧
      (∃ p n, find t "ca".toList 0 = some p ∧ node_at t p = some n ∧ n.word = false) ∧
      (∃ p n, find t "car".toList 0 = some p ∧ node_at t p = some n ∧ n.word = true) ∧
      words t [] "do".toList = ["dog".toList] ∧
      words t [] "x".toList = [] ∧ find t "x".toList 0 = none :=
  ⟨_, rfl, rfl, ⟨_, _, rfl, rfl, rfl⟩, ⟨_, _, rfl, rfl, rfl⟩, rfl, rfl, rfl⟩

/-- C7. Idempotent insertion: on any trie and for any non-empty word `w`, both calls
`add(w)` return, the second one returns the node the first one returned and leaves the
trie as the first one left it, so that `add_word_nodes` on the root enumerates the same
words after two insertions as after one. -/
theorem idempotent_insertion (t : string_trie α) (w : List α) (h : w ≠ []) :
    ∃ t1 p, add t w 0 = (t1, .ok p) ∧ add t1 w 0 = (t1, .ok p) ∧
      ∀ out, add_word_nodes (add t1 w 0).1 out = add_word_nodes (add t w 0).1 out := by
  refine ⟨grow t [] w, grow_ptr t w, add_zero_eq t w h, ?_, ?_⟩
  · rw [add_zero_eq _ w h, grow_idem, grow_ptr_idem]
  · intro out
    rw [add_zero_eq _ w h, add_zero_eq _ w h, grow_idem]

/-- Witness of C7: the word `car` inserted twice into the trie that holds `cat`. -/
theorem idempotent_insertion_witness :
    ['c', 'a', 'r'] ≠ [] ∧
    ∃ t1 p, add ([.mk [.mk [.mk [] ['c', 'a', 't'] 't' true] ['c', 'a'] 'a' false]
        ['c'] 'c' false] : string_trie Char) ['c', 'a', 'r'] 0 = (t1, .ok p) ∧
      add t1 ['c', 'a', 'r'] 0 = (t1, .ok p) ∧
      ∀ out, add_word_nodes (add t1 ['c', 'a', 'r'] 0).1 out =
        add_word_nodes (add ([.mk [.mk [.mk [] ['c', 'a', 't'] 't' true] ['c', 'a'] 'a'
          false] ['c'] 'c' false] : string_trie Char) ['c', 'a', 'r'] 0).1 out :=
  ⟨by decide, idempotent_insertion _ _ (by decide)⟩

/-- C8. Insertion only grows the trie: on any trie, a call `add(word, index)` with
`index < word.size()` returns, and every node that was in the trie is afterwards at the
same child-index path, with the same `c` and the same `value`, with its `word` flag still
set if it was set, and with at least as many children; the root has at least as many
children as before. -/
theorem insertion_only_grows (t : string_trie α) (word : List α) (index : Nat)
    (h : index < word.length) :
    ∃ t1 q, add t word index = (t1, .ok q) ∧ t.length ≤ t1.length ∧
      ∀ p n, node_at t p = some n →
        ∃ n1, node_at t1 p = some n1 ∧ n1.c = n.c ∧ n1.value = n.value ∧
          (n.word = true → n1.word = true) ∧ n.nodes.length ≤ n1.nodes.length :=
  ⟨_, _, add_eq t word index h, length_grow _ _ _, fun p n hp => node_at_grow p _ t _ n hp⟩

/-- Witness of C8: `add("cab", 1)` on the trie that holds `a` and `b`. -/
theorem insertion_only_grows_witness :
    1 < ['c', 'a', 'b'].length ∧
    ∃ t1 q, add ([.mk [] ['a'] 'a' true, .mk [] ['b'] 'b' true] : string_trie Char)
        ['c', 'a', 'b'] 1 = (t1, .ok q) ∧
      ([.mk [] ['a'] 'a' true, .mk [] ['b'] 'b' true] : string_trie Char).length
        ≤ t1.length ∧
      ∀ p n, node_at ([.mk [] ['a'] 'a' true, .mk [] ['b'] 'b' true] : string_trie Char) p
          = some n →
        ∃ n1, node_at t1 p = some n1 ∧ n1.c = n.c ∧ n1.value = n.value ∧
          (n.word = true → n1.word = true) ∧ n.nodes.length ≤ n1.nodes.length :=
  ⟨by decide, insertion_only_grows _ _ _ (by decide)⟩

/-- C9. The precondition of `add`: the call `add(word, index)` stops at the assertion
`Invalid index` exactly when `index >= word.size()`, and then leaves the trie as it was;
the empty word always does so. When `index < word.size()` the call returns, so none of
the calls below it has stopped at the assertion, and the model has not run out of fuel. -/
theorem insert_precondition (t : string_trie α) (word : List α) (index : Nat) :
    ((add t word index).2 = .error .invalid_index ↔ word.length ≤ index) ∧
    (word.length ≤ index → (add t word index).1 = t) ∧
    (index < word.length → ∃ p, (add t word index).2 = .ok p) ∧
    (add t word index).2 ≠ .error .out_of_fuel ∧
    add t [] index = (t, .error .invalid_index) := by
  by_cases h : index < word.length
  · rw [add_eq t word index h]
    refine ⟨?_, ?_, ?_, ?_, add_invalid t [] index (Nat.zero_le _)⟩
    · constructor
      · intro h1; cases h1
      · intro h1; omega
    · intro h1; omega
    · intro _; exact ⟨_, rfl⟩
    · intro h1; cases h1
  · have h' : word.length ≤ index := Nat.le_of_not_lt h
    rw [add_invalid t word index h']
    refine ⟨?_, ?_, ?_, ?_, add_invalid t [] index (Nat.zero_le _)⟩
    · exact ⟨fun _ => h', fun _ => rfl⟩
    · intro _; rfl
    · intro h1; exact absurd h1 h
    · intro h1; cases h1

/-- Witness of C9: `add("a", 1)` stops and leaves the trie, `add("ab", 0)` returns. -/
theorem insert_precondition_witness :
    (add ([.mk [] ['b'] 'b' true] : string_trie Char) ['a'] 1).2 = .error .invalid_index ∧
    (add ([.mk [] ['b'] 'b' true] : string_trie Char) ['a'] 1).1 = [.mk [] ['b'] 'b' true] ∧
    ∃ p, (add ([.mk [] ['b'] 'b' true] : string_trie Char) ['a', 'b'] 0).2 = .ok p :=
  ⟨(insert_precondition _ ['a'] 1).1.2 (by decide),
    (insert_precondition _ ['a'] 1).2.1 (by decide),
    (insert_precondition _ ['a', 'b'] 0).2.2.1 (by decide)⟩

end string_trie

namespace string_trie

variable {α : Type} [DecidableEq α]

/-- C10. `add` returns the terminal node: on any trie, a call `add(word, index)` with
`index < word.size()` returns a node whose `word` flag is set and whose `c` is the last
symbol of `word`, and `find(word, index)` on the trie afterwards returns that same node;
when the trie was built from the empty root by calls `add(word)` and `index` is `0`, the
`value` of the returned node is `word`. -/
theorem add_returns_terminal (t : string_trie α) (word : List α) (index : Nat)
    (h : index < word.length) :
    ∃ t1 q n, add t word index = (t1, .ok q) ∧ node_at t1 q = some n ∧
      n.word = true ∧ some n.c = word.getLast? ∧ find t1 word index = some q ∧
      ∀ ws : List (List α), (∀ v ∈ ws, v ≠ []) → build ws = .ok t → index = 0 →
        n.value = word := by
  have hs : word.drop index ≠ [] := by
    rw [Ne, List.drop_eq_nil_iff]; omega
  have hw := walk_grow (word.drop index) hs t (word.take index)
  cases hwalk : walk (grow t (word.take index) (word.drop index)) (word.drop index) with
  | none => simp [hwalk] at hw
  | some r =>
    obtain ⟨q, n⟩ := r
    simp only [hwalk, Option.map_some', Option.some.injEq] at hw
    subst hw
    have hl : lookup (grow t (word.take index) (word.drop index)) (word.drop index) =
        some n := by rw [lookup, hwalk]; rfl
    refine ⟨_, _, n, add_eq t word index h, walk_node_at _ _ _ _ hwalk, ?_, ?_, ?_, ?_⟩
    · have h2 := lookup_grow_along (word.drop index) hs t (word.take index) []
      rw [List.append_nil, hl] at h2
      simp only [Option.some.injEq] at h2
      rw [h2, touch_word]
      simp
    · rw [lookup_c _ hs _ _ hl, ← List.getLast?_eq_getLast, List.getLast?_drop,
        if_neg (by omega)]
    · rw [find_eq_walk word word.length _ index (by omega), hwalk]
      rfl
    · intro ws hne hb h0
      subst h0
      rw [build_eq ws hne] at hb
      injection hb with hb
      subst hb
      have hc : cached (grow (grow_all [] ws) [] word) [] :=
        cached_grow _ _ _ (cached_grow_all ws [] (cached_nil []))
      simp only [List.take_zero, List.drop_zero] at hl
      simpa using (lookup_cached word _ [] n hc hl).1

/-- Witness of C10: `add("car")` on the trie built by `add("cat")`. -/
theorem add_returns_terminal_witness :
    0 < ['c', 'a', 'r'].length ∧
    build [['c', 'a', 't']] = .ok ([.mk [.mk [.mk [] ['c', 'a', 't'] 't' true] ['c', 'a'] 'a'
      false] ['c'] 'c' false] : string_trie Char) ∧
    ∃ t1 q n, add ([.mk [.mk [.mk [] ['c', 'a', 't'] 't' true] ['c', 'a'] 'a' false]
        ['c'] 'c' false] : string_trie Char) ['c', 'a', 'r'] 0 = (t1, .ok q) ∧
      node_at t1 q = some n ∧ n.word = true ∧ some n.c = ['c', 'a', 'r'].getLast? ∧
      find t1 ['c', 'a', 'r'] 0 = some q ∧
      ∀ ws : List (List Char), (∀ v ∈ ws, v ≠ []) →
        build ws = .ok ([.mk [.mk [.mk [] ['c', 'a', 't'] 't' true] ['c', 'a'] 'a' false]
          ['c'] 'c' false] : string_trie Char) → 0 = 0 → n.value = ['c', 'a', 'r'] :=
  ⟨by decide, rfl, add_returns_terminal _ _ _ (by decide)⟩

end string_trie

namespace string_trie

variable {α : Type} [DecidableEq α]

/-- C11. Non-membership: in the trie that calls `add(word)` with non-empty words build
from the empty root, `find(s)` for a sequence `s` that is not one of the inserted words
is null or returns a node whose `word` flag is false; put the other way round, a node
that `find(s)` returns has its `word` flag set only if `s` was inserted. -/
theorem non_membership (ws : List (List α)) (s : List α) (h : ∀ w ∈ ws, w ≠ []) :
    ∃ t, build ws = .ok t ∧
      (s ∉ ws → find t s 0 = none ∨
        ∃ p n, find t s 0 = some p ∧ node_at t p = some n ∧ n.word = false) ∧
      (∀ p n, find t s 0 = some p → node_at t p = some n → n.word = true → s ∈ ws) := by
  refine ⟨grow_all [] ws, build_eq ws h, ?_⟩
  have hw : is_word (grow_all [] ws) s = decide (s ∈ ws) := by
    rw [is_word_grow_all ws [] s h, is_word_empty, Bool.or_false]
  constructor
  · intro hs
    cases hf : find (grow_all [] ws) s 0 with
    | none => exact Or.inl rfl
    | some p =>
      right
      obtain ⟨n, h1, h2⟩ := lookup_of_find _ _ _ hf
      refine ⟨p, n, rfl, h2, ?_⟩
      rw [is_word, h1] at hw
      simpa [hs] using hw
  · intro p n hf hn hword
    obtain ⟨m, h1, h2⟩ := lookup_of_find _ _ _ hf
    rw [hn] at h2
    simp only [Option.some.injEq] at h2
    subst h2
    rw [is_word, h1] at hw
    simp only at hw
    rw [hword] at hw
    simpa using hw.symm

/-- Witness of C11: `cat` and `car` inserted, and the sequence `ca`, which was not. -/
theorem non_membership_witness :
    (∀ w ∈ [['c', 'a', 't'], ['c', 'a', 'r']], w ≠ []) ∧
    ∃ t, build [['c', 'a', 't'], ['c', 'a', 'r']] = .ok t ∧
      (['c', 'a'] ∉ [['c', 'a', 't'], ['c', 'a', 'r']] → find t ['c', 'a'] 0 = none ∨
        ∃ p n, find t ['c', 'a'] 0 = some p ∧ node_at t p = some n ∧ n.word = false) ∧
      (∀ p n, find t ['c', 'a'] 0 = some p → node_at t p = some n → n.word = true →
        ['c', 'a'] ∈ [['c', 'a', 't'], ['c', 'a', 'r']]) :=
  ⟨by decide, non_membership _ _ (by decide)⟩

/-- C12. Out-of-range lookup: on any trie, `find(s, index)` with `index >= s.size()` is
null, and so is `find` of the empty sequence at any index; `find` is a total function,
so neither call fails. -/
theorem out_of_range_lookup (t : string_trie α) (s : List α) (index : Nat)
    (h : s.length ≤ index) : find t s index = none ∧ find t [] index = none := by
  constructor
  · rw [find, dif_pos h]
  · have h0 : index ≥ ([] : List α).length := Nat.zero_le _
    rw [find, dif_pos h0]

/-- Witness of C12: `find("ab", 2)` on the trie that holds `ab`. -/
theorem out_of_range_lookup_witness :
    ['a', 'b'].length ≤ 2 ∧
    find ([.mk [.mk [] ['a', 'b'] 'b' true] ['a'] 'a' false] : string_trie Char)
      ['a', 'b'] 2 = none ∧
    find ([.mk [.mk [] ['a', 'b'] 'b' true] ['a'] 'a' false] : string_trie Char) [] 2 = none :=
  ⟨by decide, out_of_range_lookup _ _ _ (by decide)⟩

/-- C13. Absent prefix: on any trie and for any `out`, when `find(p)` is null the call
`words(out, p)` leaves `out` as it was. -/
theorem absent_prefix_noop (t : string_trie α) (out : List (List α)) (p : List α)
    (h : find t p 0 = none) : words t out p = out := by
  rw [words, h]

/-- Witness of C13: `words(out, "x")` on the trie that holds `a`, with `out = ["z"]`. -/
theorem absent_prefix_noop_witness :
    find ([.mk [] ['a'] 'a' true] : string_trie Char) ['x'] 0 = none ∧
    words ([.mk [] ['a'] 'a' true] : string_trie Char) [['z']] ['x'] = [['z']] :=
  ⟨by decide, absent_prefix_noop _ _ _ (by decide)⟩

/-- C16. The empty trie: on a trie without insertions `find(s, index)` is null for every
`s` and `index`, and `words(out, p)` leaves every `out` as it was, an empty `out` empty. -/
theorem empty_trie_scenario (s : List α) (index : Nat) (out : List (List α)) (p : List α) :
    find ([] : string_trie α) s index = none ∧
    words ([] : string_trie α) [] p = [] ∧
    words ([] : string_trie α) out p = out := by
  have hf : ∀ (s : List α) (i : Nat), find ([] : string_trie α) s i = none := by
    intro s i
    rw [find]
    split_ifs
    · rfl
    · rw [find_loop]
  exact ⟨hf s index, by rw [words, hf], by rw [words, hf]⟩

/-- C17. `find` is a walk along its argument: in the trie that calls `add(word)` with
non-empty words build from the empty root, `find(s)` returns a node exactly when `s` is
not empty and is a prefix of an inserted word, and the `value` of that node is `s`,
whatever its `word` flag is. -/
theorem find_is_path_walk (ws : List (List α)) (s : List α) (h : ∀ w ∈ ws, w ≠ []) :
    ∃ t, build ws = .ok t ∧
      ((∃ p, find t s 0 = some p) ↔ (s ≠ [] ∧ ∃ w ∈ ws, s <+: w)) ∧
      ∀ p, find t s 0 = some p → ∃ n, node_at t p = some n ∧ n.value = s := by
  refine ⟨grow_all [] ws, build_eq ws h, ?_, ?_⟩
  · have hp := has_path_grow_all ws [] s
    rw [has_path_empty, Bool.or_false, has_path] at hp
    constructor
    · rintro ⟨p, hf⟩
      obtain ⟨n, h1, _⟩ := lookup_of_find _ _ _ hf
      rw [h1] at hp
      simpa using hp.symm
    · intro hs
      cases hl : lookup (grow_all [] ws) s with
      | none =>
        rw [hl] at hp
        have : decide (s ≠ [] ∧ ∃ w ∈ ws, s <+: w) = true := by simpa using hs
        rw [this] at hp
        simp at hp
      | some n =>
        obtain ⟨p, h1, _⟩ := find_of_lookup _ _ _ hl
        exact ⟨p, h1⟩
  · intro p hf
    obtain ⟨n, h1, h2⟩ := lookup_of_find _ _ _ hf
    have hc := lookup_cached s _ [] n (cached_grow_all ws [] (cached_nil [])) h1
    exact ⟨n, h2, by simpa using hc.1⟩

/-- Witness of C17: `cat` and `dog` inserted, and the sequence `ca`. -/
theorem find_is_path_walk_witness :
    (∀ w ∈ [['c', 'a', 't'], ['d', 'o', 'g']], w ≠ []) ∧
    ∃ t, build [['c', 'a', 't'], ['d', 'o', 'g']] = .ok t ∧
      ((∃ p, find t ['c', 'a'] 0 = some p) ↔
        (['c', 'a'] ≠ [] ∧ ∃ w ∈ [['c', 'a', 't'], ['d', 'o', 'g']], ['c', 'a'] <+: w)) ∧
      ∀ p, find t ['c', 'a'] 0 = some p → ∃ n, node_at t p = some n ∧ n.value = ['c', 'a'] :=
  ⟨by decide, find_is_path_walk _ _ (by decide)⟩

end string_trie

namespace string_trie

variable {α : Type} [DecidableEq α]

/-- C14. Dumping the whole trie: in the trie that calls `add(word)` with non-empty words
build from the empty root, `add_word_nodes(out)` on the root with an empty `out` yields
the inserted words, each of them once and nothing else. Called on a node of that trie it
appends to `out` only values of marked nodes below that node, and never that node's own
`value`. -/
theorem dump_whole_trie (ws : List (List α)) (h : ∀ w ∈ ws, w ≠ []) :
    ∃ t, build ws = .ok t ∧ (add_word_nodes t []).Nodup ∧
      (∀ w, w ∈ add_word_nodes t [] ↔ w ∈ ws) ∧
      ∀ p n, node_at t p = some n →
        (∀ out, n.add_word_nodes out = out ++ n.add_word_nodes []) ∧
        n.value ∉ n.add_word_nodes [] ∧
        ∀ w ∈ n.add_word_nodes [],
          ∃ q m, node_at n.nodes q = some m ∧ m.word = true ∧ m.value = w := by
  refine ⟨grow_all [] ws, build_eq ws h, ?_⟩
  have hd : distinct (grow_all [] ws) := distinct_grow_all ws [] distinct_nil
  have hc : cached (grow_all [] ws) [] := cached_grow_all ws [] (cached_nil [])
  have hspec := add_word_nodes_spec _ [] hd hc
  refine ⟨hspec.2, ?_, ?_⟩
  · intro w
    rw [hspec.1 w]
    simp only [List.nil_append, exists_eq_left']
    rw [is_word_grow_all ws [] w h, is_word_empty]
    simp
  · intro p n hp
    have hn := node_add_word_nodes_spec n (distinct_at p _ n hd hp)
      (cached_at_nodes p _ [] n hc hp)
    refine ⟨fun out => node_add_word_nodes_append n out, ?_, ?_⟩
    · rw [node_add_word_nodes_eq, hn.1]
      rintro ⟨s, hs, hw⟩
      have : s = [] := by simpa using hs
      subst this
      simp [is_word_nil] at hw
    · intro w hw
      rw [node_add_word_nodes_eq] at hw
      exact node_mem_add_word_nodes_at n w hw

/-- Witness of C14: the words `a`, `ab`, `a`, `c` inserted in that order. -/
theorem dump_whole_trie_witness :
    (∀ w ∈ [['a'], ['a', 'b'], ['a'], ['c']], w ≠ []) ∧
    ∃ t, build [['a'], ['a', 'b'], ['a'], ['c']] = .ok t ∧ (add_word_nodes t []).Nodup ∧
      (∀ w, w ∈ add_word_nodes t [] ↔ w ∈ [['a'], ['a', 'b'], ['a'], ['c']]) ∧
      ∀ p n, node_at t p = some n →
        (∀ out, n.add_word_nodes out = out ++ n.add_word_nodes []) ∧
        n.value ∉ n.add_word_nodes [] ∧
        ∀ w ∈ n.add_word_nodes [],
          ∃ q m, node_at n.nodes q = some m ∧ m.word = true ∧ m.value = w :=
  ⟨by decide, dump_whole_trie _ (by decide)⟩

/-- C15. Pre-order emission, append-only: on any trie, when `find(p)` returns the node
`n`, `words(out, p)` is `out` followed by `pre(n)`, where `pre(n)` is the `value` of `n`
if its `word` flag is set, followed by `pre(child)` for each child of `n` in stored
order. -/
theorem pre_order_emission (t : string_trie α) (out : List (List α)) (p : List α)
    (q : List Nat) (n : node_t α) (hf : find t p 0 = some q) (hn : node_at t q = some n) :
    words t out p = out ++ n.pre_order ∧
    n.pre_order = (if n.word then [n.value] else []) ++ pre_order n.nodes :=
  ⟨words_pre_order t out p q n hf hn, node_pre_order_eq n⟩

/-- Witness of C15: `words(out, "a")` with `out = ["z"]` on a trie whose node for `a`
is a word and has the children `b` and `c`, the second of which is a word. -/
theorem pre_order_emission_witness :
    find ([.mk [.mk [] ['a', 'b'] 'b' false, .mk [] ['a', 'c'] 'c' true] ['a'] 'a' true] :
      string_trie Char) ['a'] 0 = some [0] ∧
    node_at ([.mk [.mk [] ['a', 'b'] 'b' false, .mk [] ['a', 'c'] 'c' true] ['a'] 'a' true] :
      string_trie Char) [0] =
      some (.mk [.mk [] ['a', 'b'] 'b' false, .mk [] ['a', 'c'] 'c' true] ['a'] 'a' true) ∧
    words ([.mk [.mk [] ['a', 'b'] 'b' false, .mk [] ['a', 'c'] 'c' true] ['a'] 'a' true] :
      string_trie Char) [['z']] ['a'] = [['z'], ['a'], ['a', 'c']] :=
  ⟨rfl, rfl, (pre_order_emission
    ([.mk [.mk [] ['a', 'b'] 'b' false, .mk [] ['a', 'c'] 'c' true] ['a'] 'a' true] :
      string_trie Char) [['z']] ['a'] [0]
    (.mk [.mk [] ['a', 'b'] 'b' false, .mk [] ['a', 'c'] 'c' true] ['a'] 'a' true)
    rfl rfl).1⟩

end string_trie

namespace string_trie

variable {α : Type} [DecidableEq α]

/-- C19. Every leaf is a word: after any sequence of calls `add(word, index)` on the
empty root, each with `index < word.size()`, every node without children has its `word`
flag set; and so, whenever `find(p)` returns a node of that trie, `words(out, p)` appends
at least one word to `out`. -/
theorem every_leaf_is_word (calls : List (List α × Nat))
    (h : ∀ c ∈ calls, c.2 < c.1.length) :
    ∃ t, add_all [] calls = .ok t ∧
      (∀ p n, node_at t p = some n → n.nodes = [] → n.word = true) ∧
      ∀ (s : List α) (q : List Nat) (out : List (List α)), find t s 0 = some q →
        ∃ l, l ≠ [] ∧ words t out s = out ++ l := by
  refine ⟨_, add_all_eq calls [] h, ?_, ?_⟩
  · intro p n hp
    exact ((node_marked_iff n).1 (marked_at p _ n (marked_foldl calls [] marked_nil) hp)).1
  · intro s q out hf
    obtain ⟨n, _, h2⟩ := lookup_of_find _ s q hf
    refine ⟨n.pre_order, ?_, words_pre_order _ out s q n hf h2⟩
    exact node_pre_order_ne_nil n (marked_at q _ n (marked_foldl calls [] marked_nil) h2)

/-- Witness of C19: `add("ab", 0)`, `add("cab", 1)`, `add("a", 0)`. -/
theorem every_leaf_is_word_witness :
    (∀ c ∈ [(['a', 'b'], 0), (['c', 'a', 'b'], 1), (['a'], 0)], c.2 < c.1.length) ∧
    ∃ t, add_all [] [(['a', 'b'], 0), (['c', 'a', 'b'], 1), (['a'], 0)] = .ok t ∧
      (∀ p n, node_at t p = some n → n.nodes = [] → n.word = true) ∧
      ∀ (s : List Char) (q : List Nat) (out : List (List Char)), find t s 0 = some q →
        ∃ l, l ≠ [] ∧ words t out s = out ++ l :=
  ⟨by decide, every_leaf_is_word _ (by decide)⟩

end string_trie

namespace string_trie

variable {α : Type} [DecidableEq α]

/-- C18. Sibling order is first-insertion order: in the trie that calls `add(word)` with
non-empty words build from the empty root, the symbols `c` of the children of the root,
in stored order, are the distinct first symbols of the inserted words in the order of
their first occurrence; the children of the node that `find(q)` returns, and so of the
node at any child-index path, carry in the same way the distinct symbols that follow `q`
in the inserted words. The order is not lexical: after `b` and then `a`,
`add_word_nodes` on the root emits `["b", "a"]`. -/
theorem sibling_order (ws : List (List α)) (h : ∀ w ∈ ws, w ≠ []) :
    ∃ t, build ws = .ok t ∧
      t.map node_t.c = next_symbols [] ws ∧
      (∀ q p n, find t q 0 = some p → node_at t p = some n →
        n.nodes.map node_t.c = next_symbols q ws) ∧
      (∀ p n, node_at t p = some n →
        n.nodes.map node_t.c = next_symbols (path_symbols t p) ws) ∧
      ∃ t2 : string_trie Char, build [['b'], ['a']] = .ok t2 ∧
        t2.map node_t.c = ['b', 'a'] ∧ add_word_nodes t2 [] = [['b'], ['a']] := by
  refine ⟨grow_all [] ws, build_eq ws h, ?_, ?_, ?_, ⟨_, rfl, rfl, rfl⟩⟩
  · have := children_symbols_grow_all ws ([] : string_trie α) []
    rw [children_symbols_empty] at this
    simpa [children_symbols] using this
  · intro q p n hf hn
    obtain ⟨m, h1, h2⟩ := lookup_of_find _ q p hf
    rw [hn] at h2
    simp only [Option.some.injEq] at h2
    subst h2
    have hq : q ≠ [] := by
      rintro rfl
      simp [lookup_nil] at h1
    have := children_symbols_grow_all ws ([] : string_trie α) q
    rw [children_symbols_empty] at this
    simp only [children_symbols, if_neg hq, h1] at this
    exact this
  · intro p n hn
    have hd : distinct (grow_all [] ws) := distinct_grow_all ws [] distinct_nil
    have h1 := lookup_path_symbols p _ n hd hn
    have hq : path_symbols (grow_all [] ws) p ≠ [] := by
      intro e
      rw [e] at h1
      simp [lookup_nil] at h1
    have := children_symbols_grow_all ws ([] : string_trie α)
      (path_symbols (grow_all [] ws) p)
    rw [children_symbols_empty] at this
    simp only [children_symbols, if_neg hq, h1] at this
    exact this

/-- Witness of C18: the words `cb`, `a`, `ca`, `cb`, `b` inserted in that order. -/
theorem sibling_order_witness :
    (∀ w ∈ [['c', 'b'], ['a'], ['c', 'a'], ['c', 'b'], ['b']], w ≠ []) ∧
    next_symbols [] [['c', 'b'], ['a'], ['c', 'a'], ['c', 'b'], ['b']] = ['c', 'a', 'b'] ∧
    next_symbols ['c'] [['c', 'b'], ['a'], ['c', 'a'], ['c', 'b'], ['b']] = ['b', 'a'] ∧
    ∃ t, build [['c', 'b'], ['a'], ['c', 'a'], ['c', 'b'], ['b']] = .ok t ∧
      t.map node_t.c = next_symbols [] [['c', 'b'], ['a'], ['c', 'a'], ['c', 'b'], ['b']] ∧
      (∀ q p n, find t q 0 = some p → node_at t p = some n →
        n.nodes.map node_t.c =
          next_symbols q [['c', 'b'], ['a'], ['c', 'a'], ['c', 'b'], ['b']]) ∧
      (∀ p n, node_at t p = some n →
        n.nodes.map node_t.c =
          next_symbols (path_symbols t p)
            [['c', 'b'], ['a'], ['c', 'a'], ['c', 'b'], ['b']]) ∧
      ∃ t2 : string_trie Char, build [['b'], ['a']] = .ok t2 ∧
        t2.map node_t.c = ['b', 'a'] ∧ add_word_nodes t2 [] = [['b'], ['a']] :=
  ⟨by decide, by decide, by decide, sibling_order _ (by decide)⟩

end string_trie

namespace string_trie

variable {α : Type} [DecidableEq α]

/-- C20. A start index other than zero: after `add(w, i)` with `0 < i < w.size()` on the
empty root, every child-index path of the trie spells a beginning of `w[i..]` and the
path to the returned node spells `w[i..]`, while the `value` of the node at a path of
length `k` is the first `i + k` symbols of `w`. So `find(w[i..])` returns the returned
node, whose `word` flag is set and whose `value` is the whole of `w`, `find(w)` is null,
and `words(out, w[i..])` with an empty `out` yields `[w]`. -/
theorem nonzero_start_index (w : List α) (i : Nat) (h0 : 0 < i) (h : i < w.length) :
    ∃ t q n, add [] w i = (t, .ok q) ∧
      (∀ p m, node_at t p = some m →
        path_symbols t p = (w.drop i).take p.length ∧ m.value = w.take (i + p.length)) ∧
      path_symbols t q = w.drop i ∧
      find t (w.drop i) 0 = some q ∧ node_at t q = some n ∧
      n.word = true ∧ n.value = w ∧
      find t w 0 = none ∧ words t [] (w.drop i) = [w] := by
  have hs : w.drop i ≠ [] := by
    rw [Ne, List.drop_eq_nil_iff]; omega
  have hl := lookup_grow_empty_self (w.take i) (w.drop i) hs
  rw [List.take_append_drop] at hl
  have hw := walk_grow (w.drop i) hs ([] : string_trie α) (w.take i)
  cases hwalk : walk (grow ([] : string_trie α) (w.take i) (w.drop i)) (w.drop i) with
  | none => simp [hwalk] at hw
  | some r =>
    obtain ⟨q, n⟩ := r
    simp only [hwalk, Option.map_some', Option.some.injEq] at hw
    subst hw
    have hn : n = .mk [] w ((w.drop i).getLast hs) true := by
      have : lookup (grow ([] : string_trie α) (w.take i) (w.drop i)) (w.drop i) = some n := by
        rw [lookup, hwalk]; rfl
      rw [hl] at this
      simp only [Option.some.injEq] at this
      exact this.symm
    have hat := walk_node_at _ _ _ _ hwalk
    have hall : ∀ p m, node_at (grow ([] : string_trie α) (w.take i) (w.drop i)) p = some m →
        path_symbols (grow ([] : string_trie α) (w.take i) (w.drop i)) p
          = (w.drop i).take p.length ∧ m.value = w.take (i + p.length) := by
      intro p m hp
      have := node_at_grow_empty (w.take i) (w.drop i) p m hp
      exact ⟨this.1, by rw [this.2, List.take_add]⟩
    have hfind : find (grow ([] : string_trie α) (w.take i) (w.drop i)) (w.drop i) 0 =
        some (grow_ptr [] (w.drop i)) := by
      rw [find_zero_eq, hwalk]; rfl
    refine ⟨_, _, n, add_eq [] w i h, hall, ?_, hfind, hat, by rw [hn]; rfl,
      by rw [hn]; rfl, ?_, ?_⟩
    · have h1 := hall _ n hat
      have hv : n.value = w := by rw [hn]; rfl
      have hlen1 := path_symbols_length _ _ n hat
      have hlen2 : w.length ≤ i + (grow_ptr ([] : string_trie α) (w.drop i)).length := by
        have := congrArg List.length h1.2
        rw [hv, List.length_take] at this
        omega
      rw [h1.1, List.take_of_length_le]
      rw [List.length_drop]
      omega
    · rw [find_none_iff]
      have := has_path_grow_empty (w.take i) (w.drop i) w
      rw [has_path] at this
      have hnp : ¬ (w ≠ [] ∧ w <+: w.drop i) := by
        rintro ⟨_, hp⟩
        have := hp.length_le
        rw [List.length_drop] at this
        omega
      rw [decide_eq_false hnp] at this
      simpa using this
    · rw [words_eq, hl]
      simp [node_t.word, node_t.value, node_t.nodes, add_word_nodes]

/-- Witness of C20: `add("abab", 2)` on the empty root. -/
theorem nonzero_start_index_witness :
    0 < 2 ∧ 2 < ['a', 'b', 'a', 'b'].length ∧
    ∃ t q n, add [] ['a', 'b', 'a', 'b'] 2 = (t, .ok q) ∧
      (∀ p m, node_at t p = some m →
        path_symbols t p = (['a', 'b', 'a', 'b'].drop 2).take p.length ∧
        m.value = ['a', 'b', 'a', 'b'].take (2 + p.length)) ∧
      path_symbols t q = ['a', 'b', 'a', 'b'].drop 2 ∧
      find t (['a', 'b', 'a', 'b'].drop 2) 0 = some q ∧ node_at t q = some n ∧
      n.word = true ∧ n.value = ['a', 'b', 'a', 'b'] ∧
      find t ['a', 'b', 'a', 'b'] 0 = none ∧
      words t [] (['a', 'b', 'a', 'b'].drop 2) = [['a', 'b', 'a', 'b']] :=
  ⟨by decide, by decide, nonzero_start_index _ _ (by decide) (by decide)⟩

end string_trie
